import Mathlib

/-!
Verification of the tsi1 file-set merge engine (cnosdb `db/tsdb/index/tsi1/file_set.go`
and `db/tsdb/series_cursor.go` plus the tsi1 merge iterators).

Byte strings (`[]byte`) are modelled as `List Nat`; `bytes.Compare` is lexicographic
comparison, `bytes.Equal` is list equality.  Series-ID sets (`tsdb.SeriesIDSet`) are
modelled as `Finset Nat` with `Merge` = union and `AndNot` = difference.  Go panics
and returned errors are modelled with `Except String`.
-/

/-- Model of Go `bytes.Compare` on byte slices: lexicographic ordering. -/
def bytesCompare : List Nat → List Nat → Ordering
  | [], [] => .eq
  | [], _ :: _ => .lt
  | _ :: _, [] => .gt
  | a :: as, b :: bs =>
    if a < b then .lt
    else if b < a then .gt
    else bytesCompare as bs

theorem bytesCompare_refl (a : List Nat) : bytesCompare a a = .eq := by
  induction a with
  | nil => rfl
  | cons x xs ih => simp [bytesCompare, ih]

theorem bytesCompare_eq_iff {a b : List Nat} : bytesCompare a b = .eq ↔ a = b := by
  induction a generalizing b with
  | nil => cases b <;> simp [bytesCompare]
  | cons x xs ih =>
    cases b with
    | nil => simp [bytesCompare]
    | cons y ys =>
      by_cases hxy : x < y
      · simp [bytesCompare, hxy]
        omega
      · by_cases hyx : y < x
        · simp [bytesCompare, hxy, hyx]
          omega
        · have hx : x = y := by omega
          simp [bytesCompare, hxy, hyx, hx, ih]

theorem bytesCompare_lt_trans {a b c : List Nat}
    (hab : bytesCompare a b = .lt) (hbc : bytesCompare b c = .lt) :
    bytesCompare a c = .lt := by
  induction a generalizing b c with
  | nil =>
    cases b with
    | nil => simp [bytesCompare] at hab
    | cons y ys =>
      cases c with
      | nil => simp [bytesCompare] at hbc
      | cons z zs => simp [bytesCompare]
  | cons x xs ih =>
    cases b with
    | nil => simp [bytesCompare] at hab
    | cons y ys =>
      cases c with
      | nil => simp [bytesCompare] at hbc
      | cons z zs =>
        by_cases hxy : x < y
        · -- x < y; from hbc either y < z (so x < z) or y = z and ys < zs (so x < z)
          by_cases hyz : y < z
          · simp [bytesCompare, show x < z by omega]
          · by_cases hzy : z < y
            · simp [bytesCompare, hyz, hzy] at hbc
            · have : y = z := by omega
              simp [bytesCompare, show x < z by omega]
        · by_cases hyx : y < x
          · simp [bytesCompare, hxy, hyx] at hab
          · have hx : x = y := by omega
            subst hx
            simp [bytesCompare, hxy] at hab
            by_cases hyz : x < z
            · simp [bytesCompare, hyz]
            · by_cases hzy : z < x
              · simp [bytesCompare, hyz, hzy] at hbc
              · have : x = z := by omega
                subst this
                simp [bytesCompare, hyz] at hbc ⊢
                exact ih hab hbc

theorem bytesCompare_trichotomy (a b : List Nat) :
    bytesCompare a b = .lt ∨ a = b ∨ bytesCompare b a = .lt := by
  induction a generalizing b with
  | nil => cases b <;> simp [bytesCompare]
  | cons x xs ih =>
    cases b with
    | nil => simp [bytesCompare]
    | cons y ys =>
      rcases Nat.lt_trichotomy x y with h | h | h
      · left; simp [bytesCompare, h]
      · subst h
        rcases ih ys with h' | h' | h'
        · left; simp [bytesCompare, h']
        · right; left; simp [h']
        · right; right; simp [bytesCompare, h']
      · right; right; simp [bytesCompare, h]

theorem bytesCompare_lt_irrefl {a : List Nat} : bytesCompare a a ≠ .lt := by
  simp [bytesCompare_refl]

theorem bytesCompare_lt_ne {a b : List Nat} (h : bytesCompare a b = .lt) : a ≠ b := by
  intro he; subst he; exact bytesCompare_lt_irrefl h

/-- If `a` is not below `b` and differs from it, then `b` is strictly below `a`. -/
theorem bytesCompare_gt_of_not_lt_of_ne {a b : List Nat}
    (h1 : bytesCompare a b ≠ .lt) (h2 : a ≠ b) : bytesCompare b a = .lt := by
  rcases bytesCompare_trichotomy a b with h | h | h
  · exact absurd h h1
  · exact absurd h h2
  · exact h

/-! ## Element types of the tsi1 merge iterators (`series_cursor.go`, tsi1 part)

`MetricElem` exposes `Name()`/`Deleted()`, `TagValueElem` exposes `Value()`/`Deleted()`,
`TagKeyElem` exposes `Key()`/`Deleted()`/`TagValueIterator()`.  A per-file iterator is
modelled as the list of elements it will yield, in yield order. -/

structure MetricElem where
  name : List Nat
  deleted : Bool
  deriving DecidableEq, Repr

structure TagValueElem where
  value : List Nat
  deleted : Bool
  deriving DecidableEq, Repr

structure TagKeyElem where
  key : List Nat
  deleted : Bool
  tagValueIterator : List TagValueElem
  deriving DecidableEq, Repr

/-! ## Generic k-way merge machinery

`MergeMetricIterators` / `MergeTagKeyIterators` / `MergeTagValueIterators` in
`series_cursor.go` are three mechanically identical copies of one algorithm, differing
only in the key accessor (`Name`/`Key`/`Value`).  We model the shared algorithm once,
parameterized by the key accessor `k`, and instantiate it per element type.

A merge iterator's state is one `Slot` per source iterator: the buffered element
(`buf`, `none` when empty) and the source's remaining elements (`rest`). -/

structure Slot (α : Type) where
  buf : Option α
  rest : List α
  deriving DecidableEq, Repr

/-- `MergeXIterators(itrs...)` starts with every buffer empty. -/
def initSlots {α : Type} (srcs : List (List α)) : List (Slot α) :=
  srcs.map (fun l => ⟨none, l⟩)

/-- `Next()` first pass, per slot: "Fill buffer if empty" by pulling the source. -/
def refillSlot {α : Type} (s : Slot α) : Slot α :=
  match s.buf with
  | some _ => s
  | none =>
    match s.rest with
    | [] => s
    | e :: r => ⟨some e, r⟩

def refill {α : Type} (slots : List (Slot α)) : List (Slot α) :=
  slots.map refillSlot

/-- One step of the running-minimum scan in `Next()`:
`if name == nil || bytes.Compare(itr.buf[i].Name(), name) == -1 { name = ... }`. -/
def minKeyAcc {α : Type} (k : α → List Nat) (acc : Option (List Nat)) (s : Slot α) :
    Option (List Nat) :=
  match s.buf with
  | none => acc
  | some e =>
    match acc with
    | none => some (k e)
    | some key => if bytesCompare (k e) key = .lt then some (k e) else some key

/-- The "find next lowest key amongst the buffers" loop of `Next()`. -/
def findMinLoop {α : Type} (k : α → List Nat) : List (Slot α) → Option (List Nat) → Option (List Nat)
  | [], acc => acc
  | s :: rest, acc => findMinLoop k rest (minKeyAcc k acc s)

/-- The buffered element of a slot when it equals the minimum key
(`bytes.Equal(buf.Name(), name)`). -/
def pickSlot {α : Type} (k : α → List Nat) (key : List Nat) (s : Slot α) : Option α :=
  match s.buf with
  | some e => if k e = key then some e else none
  | none => none

/-- "Merge all elements together": collect every buffered element equal to the
minimum key, in slot (= file, newest-first) order. -/
def collectGroup {α : Type} (k : α → List Nat) (key : List Nat) (slots : List (Slot α)) :
    List α :=
  slots.filterMap (pickSlot k key)

/-- Empty a buffer whose element joined the group. -/
def clearSlot {α : Type} (k : α → List Nat) (key : List Nat) (s : Slot α) : Slot α :=
  match s.buf with
  | some e => if k e = key then ⟨none, s.rest⟩ else s
  | none => s

/-- "... and clear buffers": empty every buffer whose element joined the group. -/
def clearGroup {α : Type} (k : α → List Nat) (key : List Nat) (slots : List (Slot α)) :
    List (Slot α) :=
  slots.map (clearSlot k key)

/-- One `Next()` call of a merge iterator: refill buffers, find the lowest key,
return the merged group (or `none` when exhausted) and the new state. -/
def mergeNext {α : Type} (k : α → List Nat) (slots : List (Slot α)) :
    Option (List α) × List (Slot α) :=
  match findMinLoop k (refill slots) none with
  | none => (none, refill slots)
  | some key => (some (collectGroup k key (refill slots)), clearGroup k key (refill slots))

/-- Number of elements a slot can still deliver. -/
def slotSize {α : Type} (s : Slot α) : Nat :=
  (match s.buf with | some _ => 1 | none => 0) + s.rest.length

def slotsSize {α : Type} (slots : List (Slot α)) : Nat :=
  (slots.map slotSize).sum

/-- The full output sequence of a merge iterator (repeated `Next()` until nil),
driven by a fuel bound; `slotsSize` fuel is always enough (every successful step
consumes at least one element). -/
def mergeStreamF {α : Type} (k : α → List Nat) : Nat → List (Slot α) → List (List α)
  | 0, _ => []
  | fuel + 1, slots =>
    match mergeNext k slots with
    | (none, _) => []
    | (some g, slots') => g :: mergeStreamF k fuel slots'

/-- The output sequence of a merge iterator started at `slots`. -/
def mergeStream {α : Type} (k : α → List Nat) (slots : List (Slot α)) : List (List α) :=
  mergeStreamF k (slotsSize slots) slots

/-- `xMergeElem.Name()/Key()/Value()`: the key of the first element of the group
(nil for an empty group). -/
def groupKeyOf {α : Type} (k : α → List Nat) (g : List α) : List Nat :=
  match g with
  | [] => []
  | e :: _ => k e

/-- `xMergeElem.Deleted()`: the deleted flag of the first element of the group
(false for an empty group). -/
def groupDeletedOf {α : Type} (d : α → Bool) (g : List α) : Bool :=
  match g with
  | [] => false
  | e :: _ => d e

/-- `tsdbXIteratorAdapter.Next()` repeated until nil: skips every merged group whose
`Deleted()` is true and yields the key of each surviving group. -/
def adapterStreamF {α : Type} (k : α → List Nat) (d : α → Bool) :
    Nat → List (Slot α) → List (List Nat)
  | 0, _ => []
  | fuel + 1, slots =>
    match mergeNext k slots with
    | (none, _) => []
    | (some g, slots') =>
      if groupDeletedOf d g then adapterStreamF k d fuel slots'
      else groupKeyOf k g :: adapterStreamF k d fuel slots'

def adapterStream {α : Type} (k : α → List Nat) (d : α → Bool) (slots : List (Slot α)) :
    List (List Nat) :=
  adapterStreamF k d (slotsSize slots) slots

/-! ### Instantiations for the three element types (as in the Go source). -/

def metricMergeStream (slots : List (Slot MetricElem)) : List (List MetricElem) :=
  mergeStream MetricElem.name slots

/-- `metricMergeElem.Name()`. -/
def metricMergeElemName (g : List MetricElem) : List Nat :=
  groupKeyOf MetricElem.name g

/-- `metricMergeElem.Deleted()`. -/
def metricMergeElemDeleted (g : List MetricElem) : Bool :=
  groupDeletedOf MetricElem.deleted g

/-- Output of `tsdbMetricIteratorAdapter` wrapped around a metric merge iterator. -/
def tsdbMetricAdapterStream (slots : List (Slot MetricElem)) : List (List Nat) :=
  adapterStream MetricElem.name MetricElem.deleted slots

def tagValueMergeStream (slots : List (Slot TagValueElem)) : List (List TagValueElem) :=
  mergeStream TagValueElem.value slots

/-- `tagValueMergeElem.Value()`. -/
def tagValueMergeElemValue (g : List TagValueElem) : List Nat :=
  groupKeyOf TagValueElem.value g

/-- `tagValueMergeElem.Deleted()`. -/
def tagValueMergeElemDeleted (g : List TagValueElem) : Bool :=
  groupDeletedOf TagValueElem.deleted g

def tagKeyMergeStream (slots : List (Slot TagKeyElem)) : List (List TagKeyElem) :=
  mergeStream TagKeyElem.key slots

/-- `tagKeyMergeElem.Key()`. -/
def tagKeyMergeElemKey (g : List TagKeyElem) : List Nat :=
  groupKeyOf TagKeyElem.key g

/-- `tagKeyMergeElem.Deleted()`. -/
def tagKeyMergeElemDeleted (g : List TagKeyElem) : Bool :=
  groupDeletedOf TagKeyElem.deleted g

/-- `tagKeyMergeElem.TagValueIterator()`: accumulate per-constituent tag-value
iterators, stopping after the first constituent marked deleted. -/
def tagKeyMergeElemTVSources : List TagKeyElem → List (List TagValueElem)
  | [] => []
  | e :: rest =>
    e.tagValueIterator :: (if e.deleted then [] else tagKeyMergeElemTVSources rest)

/-- `tagKeyMergeElem.TagValueIterator()` result: `nil` for an empty group, otherwise
the merge iterator built from the accumulated sources. -/
def tagKeyMergeElemTagValueIterator (p : List TagKeyElem) :
    Option (List (Slot TagValueElem)) :=
  match p with
  | [] => none
  | _ :: _ => some (initSlots (tagKeyMergeElemTVSources p))

/-! ### Basic facts about the merge machinery -/

/-- The elements a slot can still deliver, in delivery order. -/
def slotAvail {α : Type} (s : Slot α) : List α :=
  s.buf.toList ++ s.rest

theorem slotAvail_refillSlot {α : Type} (s : Slot α) :
    slotAvail (refillSlot s) = slotAvail s := by
  cases hb : s.buf with
  | some e => simp [refillSlot, hb]
  | none =>
    cases hr : s.rest with
    | nil => simp [refillSlot, hb, hr]
    | cons e r => simp [refillSlot, slotAvail, hb, hr]

theorem slotAvail_eq_nil_of_refill_buf_none {α : Type} {s : Slot α}
    (h : (refillSlot s).buf = none) : slotAvail s = [] := by
  cases hb : s.buf with
  | some e => simp [refillSlot, hb] at h
  | none =>
    cases hr : s.rest with
    | nil => simp [slotAvail, hb, hr]
    | cons e r => simp [refillSlot, hb, hr] at h

theorem slotSize_refillSlot {α : Type} (s : Slot α) :
    slotSize (refillSlot s) = slotSize s := by
  cases hb : s.buf with
  | some e => simp [refillSlot, hb]
  | none =>
    cases hr : s.rest with
    | nil => simp [refillSlot, hb, hr]
    | cons e r =>
      simp [refillSlot, slotSize, hb, hr]
      omega

theorem slotsSize_refill {α : Type} (slots : List (Slot α)) :
    slotsSize (refill slots) = slotsSize slots := by
  simp only [slotsSize, refill, List.map_map]
  congr 1
  apply List.map_congr_left
  intro s _
  exact slotSize_refillSlot s

theorem slotSize_clearSlot_le {α : Type} (k : α → List Nat) (key : List Nat) (s : Slot α) :
    slotSize (clearSlot k key s) ≤ slotSize s := by
  cases hb : s.buf with
  | some e =>
    by_cases hk : k e = key
    · simp [clearSlot, hb, hk, slotSize]
    · simp [clearSlot, hb, hk]
  | none => simp [clearSlot, hb]

theorem slotSize_clearSlot_lt {α : Type} (k : α → List Nat) (key : List Nat) {s : Slot α}
    {e : α} (hb : s.buf = some e) (hk : k e = key) :
    slotSize (clearSlot k key s) < slotSize s := by
  simp [clearSlot, hb, hk, slotSize]

theorem sum_map_lt_sum_map {β : Type} (l : List β) (f g : β → Nat)
    (hle : ∀ x ∈ l, f x ≤ g x) (hlt : ∃ x ∈ l, f x < g x) :
    (l.map f).sum < (l.map g).sum := by
  induction l with
  | nil => simp at hlt
  | cons y ys ih =>
    rcases hlt with ⟨x, hx, hfx⟩
    rcases List.mem_cons.mp hx with rfl | hx'
    · have hrest : (ys.map f).sum ≤ (ys.map g).sum := by
        apply List.sum_le_sum
        intro i hi
        exact hle i (List.mem_cons_of_mem _ hi)
      simpa using Nat.add_lt_add_of_lt_of_le hfx hrest
    · have hy : f y ≤ g y := hle y (List.mem_cons_self _ _)
      have := ih (fun z hz => hle z (List.mem_cons_of_mem _ hz)) ⟨x, hx', hfx⟩
      simpa using Nat.add_lt_add_of_le_of_lt hy this

/-! ### Properties of the running-minimum loop -/

theorem findMinLoop_eq_none {α : Type} (k : α → List Nat) :
    ∀ (slots : List (Slot α)) (acc : Option (List Nat)),
      findMinLoop k slots acc = none ↔ (acc = none ∧ ∀ s ∈ slots, s.buf = none) := by
  intro slots
  induction slots with
  | nil => intro acc; simp [findMinLoop]
  | cons s rest ih =>
    intro acc
    rw [findMinLoop, ih]
    cases hb : s.buf with
    | none => simp [minKeyAcc, hb]
    | some e =>
      cases acc with
      | none => simp [minKeyAcc, hb]
      | some key =>
        constructor
        · rintro ⟨h, -⟩
          exfalso
          by_cases hlt : bytesCompare (k e) key = .lt <;> simp [minKeyAcc, hb, hlt] at h
        · rintro ⟨-, hall⟩
          exact absurd (hall s (List.mem_cons_self _ _)) (by simp [hb])

theorem findMinLoop_attained {α : Type} (k : α → List Nat) :
    ∀ (slots : List (Slot α)) (acc : Option (List Nat)) (key : List Nat),
      findMinLoop k slots acc = some key →
      acc = some key ∨ ∃ s ∈ slots, ∃ e, s.buf = some e ∧ k e = key := by
  intro slots
  induction slots with
  | nil =>
    intro acc key h
    exact Or.inl h
  | cons s rest ih =>
    intro acc key h
    rw [findMinLoop] at h
    rcases ih _ _ h with hacc | ⟨s', hs', e', hb', hk'⟩
    · cases hbuf : s.buf with
      | none =>
        simp [minKeyAcc, hbuf] at hacc
        exact Or.inl hacc
      | some e =>
        cases acc with
        | none =>
          simp [minKeyAcc, hbuf] at hacc
          exact Or.inr ⟨s, List.mem_cons_self _ _, e, hbuf, hacc⟩
        | some a =>
          by_cases hlt : bytesCompare (k e) a = .lt
          · simp [minKeyAcc, hbuf, hlt] at hacc
            exact Or.inr ⟨s, List.mem_cons_self _ _, e, hbuf, hacc⟩
          · simp [minKeyAcc, hbuf, hlt] at hacc
            exact Or.inl (by rw [hacc])
    · exact Or.inr ⟨s', List.mem_cons_of_mem _ hs', e', hb', hk'⟩

theorem findMinLoop_min {α : Type} (k : α → List Nat) :
    ∀ (slots : List (Slot α)) (acc : Option (List Nat)) (key : List Nat),
      findMinLoop k slots acc = some key →
      (∀ s ∈ slots, ∀ e, s.buf = some e → bytesCompare (k e) key ≠ .lt) ∧
      (∀ a, acc = some a → bytesCompare a key ≠ .lt) := by
  intro slots
  induction slots with
  | nil =>
    intro acc key h
    exact ⟨by simp, fun a ha => by rw [findMinLoop] at h; rw [ha] at h; injection h with h; rw [h]; exact bytesCompare_lt_irrefl⟩
  | cons s rest ih =>
    intro acc key h
    rw [findMinLoop] at h
    obtain ⟨hrest, hacc'⟩ := ih _ _ h
    have hmain : (∀ e, s.buf = some e → bytesCompare (k e) key ≠ .lt) ∧
        (∀ a, acc = some a → bytesCompare a key ≠ .lt) := by
      cases hbuf : s.buf with
      | none =>
        refine ⟨by simp, fun a ha => hacc' a ?_⟩
        subst ha
        simp [minKeyAcc, hbuf]
      | some e =>
        cases hac : acc with
        | none =>
          have he : bytesCompare (k e) key ≠ .lt := hacc' (k e) (by simp [minKeyAcc, hbuf, hac])
          constructor
          · intro e' he'
            injection he' with h2
            rw [← h2]
            exact he
          · intro a ha
            exact absurd ha (by simp)
        | some a =>
          by_cases hlt : bytesCompare (k e) a = .lt
          · have he : bytesCompare (k e) key ≠ .lt :=
              hacc' (k e) (by simp [minKeyAcc, hbuf, hac, hlt])
            constructor
            · intro e' he'
              injection he' with h2
              rw [← h2]
              exact he
            · intro a' ha'
              injection ha' with h2
              subst h2
              intro haK
              exact he (bytesCompare_lt_trans hlt haK)
          · have ha : bytesCompare a key ≠ .lt :=
              hacc' a (by simp [minKeyAcc, hbuf, hac, hlt])
            constructor
            · intro e' he'
              injection he' with h2
              rw [← h2]
              intro heK
              by_cases heq : k e = a
              · rw [heq] at heK
                exact ha heK
              · have hgt : bytesCompare a (k e) = .lt := bytesCompare_gt_of_not_lt_of_ne hlt heq
                exact ha (bytesCompare_lt_trans hgt heK)
            · intro a' ha'
              injection ha' with h2
              rw [← h2]
              exact ha
    exact ⟨fun s' hs' => by
        rcases List.mem_cons.mp hs' with rfl | hmem
        · exact hmain.1
        · exact hrest s' hmem, hmain.2⟩

theorem mem_collectGroup {α : Type} (k : α → List Nat) (key : List Nat)
    (slots : List (Slot α)) (e : α) :
    e ∈ collectGroup k key slots ↔ ∃ s ∈ slots, s.buf = some e ∧ k e = key := by
  simp only [collectGroup, List.mem_filterMap]
  constructor
  · rintro ⟨s, hs, hp⟩
    cases hb : s.buf with
    | none => simp [pickSlot, hb] at hp
    | some e' =>
      by_cases hk : k e' = key
      · simp [pickSlot, hb, hk] at hp
        subst hp
        exact ⟨s, hs, hb, hk⟩
      · simp [pickSlot, hb, hk] at hp
  · rintro ⟨s, hs, hb, hk⟩
    exact ⟨s, hs, by simp [pickSlot, hb, hk]⟩

theorem mergeNext_size_lt {α : Type} (k : α → List Nat) {slots slots' : List (Slot α)}
    {g : List α} (h : mergeNext k slots = (some g, slots')) :
    slotsSize slots' < slotsSize slots := by
  rw [mergeNext] at h
  cases hm : findMinLoop k (refill slots) none with
  | none => rw [hm] at h; simp at h
  | some key =>
    rw [hm] at h
    simp only [Prod.mk.injEq] at h
    obtain ⟨-, hs'⟩ := h
    rcases findMinLoop_attained k _ _ _ hm with hacc | ⟨s, hs, e, hb, hk⟩
    · exact absurd hacc (by simp)
    · calc slotsSize slots' = ((refill slots).map (fun s => slotSize (clearSlot k key s))).sum := by
            rw [← hs']; simp [clearGroup, slotsSize, List.map_map]; rfl
        _ < ((refill slots).map slotSize).sum := by
            apply sum_map_lt_sum_map
            · intro x _; exact slotSize_clearSlot_le k key x
            · exact ⟨s, hs, slotSize_clearSlot_lt k key hb hk⟩
        _ = slotsSize slots := slotsSize_refill slots

/-! ### The main structural invariant of one merge step -/

/-- A source is sorted strictly increasing by byte-wise key. -/
def availPairwise {α : Type} (k : α → List Nat) (s : Slot α) : Prop :=
  List.Pairwise (fun a b => bytesCompare (k a) (k b) = .lt) (slotAvail s)

theorem slot_step_facts {α : Type} (k : α → List Nat) (kmin : List Nat) (s : Slot α)
    (hs : availPairwise k s)
    (hmin : ∀ e, (refillSlot s).buf = some e → bytesCompare (k e) kmin ≠ .lt) :
    (pickSlot k kmin (refillSlot s) = (slotAvail s).find? (fun e => decide (k e = kmin))) ∧
    (∀ x ∈ slotAvail (clearSlot k kmin (refillSlot s)), x ∈ slotAvail s) ∧
    availPairwise k (clearSlot k kmin (refillSlot s)) ∧
    (∀ x ∈ slotAvail (clearSlot k kmin (refillSlot s)), bytesCompare kmin (k x) = .lt) ∧
    (∀ key2, bytesCompare kmin key2 = .lt →
      (slotAvail (clearSlot k kmin (refillSlot s))).find? (fun e => decide (k e = key2)) =
      (slotAvail s).find? (fun e => decide (k e = key2))) := by
  cases hb : (refillSlot s).buf with
  | none =>
    have hav : slotAvail s = [] := slotAvail_eq_nil_of_refill_buf_none hb
    have hav1 : slotAvail (refillSlot s) = [] := by rw [slotAvail_refillSlot]; exact hav
    have hrest : (refillSlot s).rest = [] := by
      have := hav1
      simp [slotAvail, hb] at this
      exact this
    have hclear : clearSlot k kmin (refillSlot s) = refillSlot s := by
      simp [clearSlot, hb]
    refine ⟨?_, ?_, ?_, ?_, ?_⟩
    · simp [pickSlot, hb, hav]
    · intro x hx
      rw [hclear, hav1] at hx
      simp at hx
    · rw [availPairwise, hclear, hav1]
      exact List.Pairwise.nil
    · intro x hx
      rw [hclear, hav1] at hx
      simp at hx
    · intro key2 _
      rw [hclear, hav1, hav]
  | some e =>
    have hav1 : slotAvail (refillSlot s) = e :: (refillSlot s).rest := by
      simp [slotAvail, hb]
    have hav : slotAvail s = e :: (refillSlot s).rest := by
      rw [← slotAvail_refillSlot]; exact hav1
    have hPair : List.Pairwise (fun a b => bytesCompare (k a) (k b) = .lt)
        (e :: (refillSlot s).rest) := by
      rw [availPairwise, hav] at hs; exact hs
    have he_all : ∀ x ∈ (refillSlot s).rest, bytesCompare (k e) (k x) = .lt :=
      (List.pairwise_cons.mp hPair).1
    have hPrest : List.Pairwise (fun a b => bytesCompare (k a) (k b) = .lt)
        (refillSlot s).rest := (List.pairwise_cons.mp hPair).2
    have hemin : bytesCompare (k e) kmin ≠ .lt := hmin e hb
    by_cases hk : k e = kmin
    · have hclear : clearSlot k kmin (refillSlot s) = ⟨none, (refillSlot s).rest⟩ := by
        simp [clearSlot, hb, hk]
      have hclav : slotAvail (clearSlot k kmin (refillSlot s)) = (refillSlot s).rest := by
        rw [hclear]; simp [slotAvail]
      refine ⟨?_, ?_, ?_, ?_, ?_⟩
      · rw [hav, List.find?_cons_of_pos _ (by simp [hk]), pickSlot, hb]
        simp [hk]
      · intro x hx
        rw [hclav] at hx
        rw [hav]
        exact List.mem_cons_of_mem _ hx
      · rw [availPairwise, hclav]
        exact hPrest
      · intro x hx
        rw [hclav] at hx
        rw [← hk]
        exact he_all x hx
      · intro key2 h2
        rw [hclav, hav, List.find?_cons_of_neg]
        simp only [decide_eq_true_eq]
        rw [hk]
        exact fun hcon => absurd h2 (by rw [hcon]; exact bytesCompare_lt_irrefl)
    · have hgt : bytesCompare kmin (k e) = .lt := bytesCompare_gt_of_not_lt_of_ne hemin hk
      have hclear : clearSlot k kmin (refillSlot s) = refillSlot s := by
        simp [clearSlot, hb, hk]
      refine ⟨?_, ?_, ?_, ?_, ?_⟩
      · have hrest_none : (refillSlot s).rest.find? (fun x => decide (k x = kmin)) = none := by
          rw [List.find?_eq_none]
          intro x hx
          simp only [decide_eq_true_eq]
          intro hcon
          have := bytesCompare_lt_trans hgt (he_all x hx)
          rw [hcon] at this
          exact bytesCompare_lt_irrefl this
        rw [hav, List.find?_cons_of_neg _ (by simp [hk]), hrest_none, pickSlot, hb]
        simp [hk]
      · intro x hx
        rw [hclear, slotAvail_refillSlot] at hx
        exact hx
      · rw [availPairwise, hclear, slotAvail_refillSlot]
        exact hs
      · intro x hx
        rw [hclear, hav1] at hx
        rcases List.mem_cons.mp hx with rfl | hx'
        · exact hgt
        · exact bytesCompare_lt_trans hgt (he_all x hx')
      · intro key2 _
        rw [hclear, slotAvail_refillSlot]

/-- The central invariant of the k-way merge: under strictly-sorted sources,
every emitted group is nonempty and key-uniform, consists of exactly the
(unique) same-key element of each source that contains the key — in slot
(file) order — the emitted keys are strictly increasing pairwise, and every
emitted element comes from one of the sources. -/
theorem mergeStreamF_props {α : Type} (k : α → List Nat) :
    ∀ (fuel : Nat) (slots : List (Slot α)),
      (∀ s ∈ slots, availPairwise k s) →
      (∀ g ∈ mergeStreamF k fuel slots,
          g ≠ [] ∧
          (∀ e ∈ g, k e = groupKeyOf k g) ∧
          g = slots.filterMap
            (fun s => (slotAvail s).find? (fun e => decide (k e = groupKeyOf k g)))) ∧
      List.Pairwise (fun g h => bytesCompare (groupKeyOf k g) (groupKeyOf k h) = .lt)
        (mergeStreamF k fuel slots) ∧
      (∀ g ∈ mergeStreamF k fuel slots, ∀ e ∈ g, ∃ s ∈ slots, e ∈ slotAvail s) := by
  intro fuel
  induction fuel with
  | zero =>
    intro slots _
    simp [mergeStreamF]
  | succ n ih =>
    intro slots hsorted
    cases hm : findMinLoop k (refill slots) none with
    | none =>
      have hmn : mergeNext k slots = (none, refill slots) := by rw [mergeNext, hm]
      have hstream : mergeStreamF k (n + 1) slots = [] := by rw [mergeStreamF, hmn]
      rw [hstream]
      simp
    | some kmin =>
      have hmn : mergeNext k slots =
          (some (collectGroup k kmin (refill slots)), clearGroup k kmin (refill slots)) := by
        rw [mergeNext, hm]
      have hstream : mergeStreamF k (n + 1) slots =
          collectGroup k kmin (refill slots) ::
            mergeStreamF k n (clearGroup k kmin (refill slots)) := by
        rw [mergeStreamF, hmn]
      have hminf := (findMinLoop_min k (refill slots) none kmin hm).1
      have hatt : ∃ sR ∈ refill slots, ∃ e, sR.buf = some e ∧ k e = kmin := by
        rcases findMinLoop_attained k (refill slots) none kmin hm with hacc | h
        · exact absurd hacc (by simp)
        · exact h
      have hf : ∀ s ∈ slots,
          (pickSlot k kmin (refillSlot s) =
            (slotAvail s).find? (fun e => decide (k e = kmin))) ∧
          (∀ x ∈ slotAvail (clearSlot k kmin (refillSlot s)), x ∈ slotAvail s) ∧
          availPairwise k (clearSlot k kmin (refillSlot s)) ∧
          (∀ x ∈ slotAvail (clearSlot k kmin (refillSlot s)), bytesCompare kmin (k x) = .lt) ∧
          (∀ key2, bytesCompare kmin key2 = .lt →
            (slotAvail (clearSlot k kmin (refillSlot s))).find? (fun e => decide (k e = key2)) =
            (slotAvail s).find? (fun e => decide (k e = key2))) := by
        intro s hs
        apply slot_step_facts k kmin s (hsorted s hs)
        intro e he
        exact hminf (refillSlot s) (List.mem_map_of_mem _ hs) e he
      have hslots1 : clearGroup k kmin (refill slots) =
          slots.map (fun s => clearSlot k kmin (refillSlot s)) := by
        rw [clearGroup, refill, List.map_map]
        rfl
      have hmem1 : ∀ s'' ∈ clearGroup k kmin (refill slots),
          ∃ s ∈ slots, s'' = clearSlot k kmin (refillSlot s) := by
        intro s'' h''
        rw [hslots1] at h''
        rcases List.mem_map.mp h'' with ⟨s, hs, heq⟩
        exact ⟨s, hs, heq.symm⟩
      have hsorted1 : ∀ s'' ∈ clearGroup k kmin (refill slots), availPairwise k s'' := by
        intro s'' h''
        rcases hmem1 s'' h'' with ⟨s, hs, rfl⟩
        exact (hf s hs).2.2.1
      obtain ⟨ihq1, ihq2, ihq3⟩ := ih (clearGroup k kmin (refill slots)) hsorted1
      -- every element of the current group is available in the original slots
      have hg0sound : ∀ e ∈ collectGroup k kmin (refill slots),
          ∃ s ∈ slots, e ∈ slotAvail s := by
        intro e he
        rcases (mem_collectGroup k kmin (refill slots) e).mp he with ⟨sR, hsR, hb, -⟩
        rcases List.mem_map.mp hsR with ⟨s, hs, heq⟩
        refine ⟨s, hs, ?_⟩
        rw [← slotAvail_refillSlot s, heq]
        simp [slotAvail, hb]
      have hg0ne : collectGroup k kmin (refill slots) ≠ [] := by
        rcases hatt with ⟨sR, hsR, e0, hb0, hk0⟩
        have : e0 ∈ collectGroup k kmin (refill slots) :=
          (mem_collectGroup k kmin (refill slots) e0).mpr ⟨sR, hsR, hb0, hk0⟩
        exact List.ne_nil_of_mem this
      have hg0key : groupKeyOf k (collectGroup k kmin (refill slots)) = kmin := by
        cases hg : collectGroup k kmin (refill slots) with
        | nil => exact absurd hg hg0ne
        | cons h t =>
          have : h ∈ collectGroup k kmin (refill slots) := by
            rw [hg]; exact List.mem_cons_self _ _
          rcases (mem_collectGroup k kmin (refill slots) h).mp this with ⟨-, -, -, hk⟩
          simp [groupKeyOf, hk]
      have hg0uniform : ∀ e ∈ collectGroup k kmin (refill slots),
          k e = groupKeyOf k (collectGroup k kmin (refill slots)) := by
        intro e he
        rw [hg0key]
        rcases (mem_collectGroup k kmin (refill slots) e).mp he with ⟨-, -, -, hk⟩
        exact hk
      have hg0P3 : collectGroup k kmin (refill slots) =
          slots.filterMap (fun s => (slotAvail s).find? (fun e => decide (k e = kmin))) := by
        rw [collectGroup, refill, List.filterMap_map]
        apply List.filterMap_congr
        intro s hs
        exact (hf s hs).1
      -- keys of all later groups lie strictly above kmin
      have hkey' : ∀ g' ∈ mergeStreamF k n (clearGroup k kmin (refill slots)),
          bytesCompare kmin (groupKeyOf k g') = .lt := by
        intro g' hg'
        obtain ⟨hne, huni, -⟩ := ihq1 g' hg'
        cases hg : g' with
        | nil => exact absurd hg hne
        | cons e' t' =>
          have he' : e' ∈ g' := by rw [hg]; exact List.mem_cons_self _ _
          rcases ihq3 g' hg' e' he' with ⟨s'', hs'', hav⟩
          rcases hmem1 s'' hs'' with ⟨s, hs, rfl⟩
          have hlb := (hf s hs).2.2.2.1 e' hav
          simpa [groupKeyOf] using hlb
      rw [hstream]
      refine ⟨?_, ?_, ?_⟩
      · intro g hg
        rcases List.mem_cons.mp hg with rfl | hg'
        · refine ⟨hg0ne, hg0uniform, ?_⟩
          rw [hg0key]
          exact hg0P3
        · obtain ⟨hne, huni, hP3⟩ := ihq1 g hg'
          refine ⟨hne, huni, ?_⟩
          have hlt : bytesCompare kmin (groupKeyOf k g) = .lt := hkey' g hg'
          have hstep :
              List.filterMap
                (fun s => List.find? (fun e => decide (k e = groupKeyOf k g)) (slotAvail s))
                (clearGroup k kmin (refill slots)) =
              List.filterMap
                (fun s => List.find? (fun e => decide (k e = groupKeyOf k g)) (slotAvail s))
                slots := by
            rw [hslots1, List.filterMap_map]
            apply List.filterMap_congr
            intro s hs
            exact (hf s hs).2.2.2.2 (groupKeyOf k g) hlt
          exact hP3.trans hstep
      · refine List.pairwise_cons.mpr ⟨?_, ihq2⟩
        intro g' hg'
        rw [hg0key]
        exact hkey' g' hg'
      · intro g hg e he
        rcases List.mem_cons.mp hg with rfl | hg'
        · exact hg0sound e he
        · rcases ihq3 g hg' e he with ⟨s'', hs'', hav⟩
          rcases hmem1 s'' hs'' with ⟨s, hs, rfl⟩
          exact ⟨s, hs, (hf s hs).2.1 e hav⟩

/-- The tombstone-unaware tsdb adapters yield exactly the keys of the non-deleted
merged groups, in order. -/
theorem adapterStreamF_eq_filter {α : Type} (k : α → List Nat) (d : α → Bool) :
    ∀ (fuel : Nat) (slots : List (Slot α)),
      adapterStreamF k d fuel slots =
        ((mergeStreamF k fuel slots).filter (fun g => !groupDeletedOf d g)).map
          (groupKeyOf k) := by
  intro fuel
  induction fuel with
  | zero =>
    intro slots
    simp [adapterStreamF, mergeStreamF]
  | succ n ih =>
    intro slots
    rcases hmn : mergeNext k slots with ⟨og, slots'⟩
    cases og with
    | none =>
      rw [adapterStreamF, mergeStreamF, hmn]
      simp
    | some g =>
      rw [adapterStreamF, mergeStreamF, hmn]
      by_cases hd : groupDeletedOf d g
      · simp [hd, ih slots']
      · simp [hd, ih slots']

/-! ## The File capability contract and FileSet read operations (`file_set.go`)

Only the capabilities used by the verified operations are modelled.  Per-file
lookups/iterators may be absent (`none` models a nil Go interface value); series-set
operations return `Except String` (the Go `error`) of an optional set (nil pointer). -/

structure File where
  /-- `Metric(name)`: element or absent. -/
  metric : List Nat → Option MetricElem
  /-- `TagKeyIterator(name)`: per-file tag-key iterator (may be nil). -/
  tagKeyIterator : List Nat → Option (List TagKeyElem)
  /-- `TagValueSeriesIDSet(name, key, value)`. -/
  tagValueSeriesIDSet : List Nat → List Nat → List Nat → Except String (Option (Finset Nat))
  /-- `TombstoneSeriesIDSet()`. -/
  tombstoneSeriesIDSet : Except String (Option (Finset Nat))

/-- `FileSet.Metric(name)`: first file (newest-first) with a non-absent element wins;
a deleted element means logically absent. -/
def fsMetric (files : List File) (name : List Nat) : Option MetricElem :=
  match files with
  | [] => none
  | f :: rest =>
    match f.metric name with
    | none => fsMetric rest name
    | some e => if e.deleted then none else some e

/-- `FileSet.TagKeyIterator(name)`: merge iterator over the non-nil per-file
iterators (`MergeTagKeyIterators` returns nil when there are none). -/
def fsTagKeyIterator (files : List File) (name : List Nat) :
    Option (List (Slot TagKeyElem)) :=
  match files.filterMap (fun f => f.tagKeyIterator name) with
  | [] => none
  | itrs => some (initSlots itrs)

/-! ### `FileSet.TagValueSeriesIDIterator` (file_set.go lines 385-411)

The Go loop walks `fs.files` from the last index (oldest) to index 0 (newest),
keeping the accumulated set `ss` and the tombstone set `ftss` fetched from the
previously processed (older) file.  We model the loop body over the reversed
(oldest-first) file list. -/

/-- `if ftss != nil && ftss.Cardinality() > 0 { ss = ss.AndNot(ftss) }`. -/
def applyTomb (ftss : Option (Finset Nat)) (ss : Finset Nat) : Finset Nat :=
  match ftss with
  | some t => if 0 < t.card then ss \ t else ss
  | none => ss

/-- `if fss != nil { ss.Merge(fss) }`. -/
def mergeSet (fss : Option (Finset Nat)) (ss1 : Finset Nat) : Finset Nat :=
  match fss with
  | some s => ss1 ∪ s
  | none => ss1

/-- Body of the loop: `ss = ss.AndNot(ftss)` guarded by nil/cardinality, then
`ss.Merge(fss)`, then fetch this file's tombstone set for the next iteration. -/
def tvLoop (name key value : List Nat) :
    List File → Finset Nat → Option (Finset Nat) → Except String (Finset Nat)
  | [], ss, _ => .ok ss
  | f :: rest, ss, ftss =>
    match f.tagValueSeriesIDSet name key value with
    | .error e => .error e
    | .ok fss =>
      match f.tombstoneSeriesIDSet with
      | .error e => .error e
      | .ok ftss2 => tvLoop name key value rest (mergeSet fss (applyTomb ftss ss)) ftss2

/-- `FileSet.TagValueSeriesIDIterator(name, key, value)`: the underlying
`SeriesIDSet` of the returned `NewSeriesIDSetIterator`. -/
def tagValueSeriesIDIterator (files : List File) (name key value : List Nat) :
    Except String (Finset Nat) :=
  tvLoop name key value files.reverse ∅ none

/-- A nil-able Go `*SeriesIDSet` read as a set (`nil` behaves as the empty set in
the loop: a nil `fss` is not merged, a nil `ftss` is not subtracted). -/
def oset (o : Option (Finset Nat)) : Finset Nat := o.getD ∅

theorem mem_applyTomb (ftss : Option (Finset Nat)) (ss : Finset Nat) (x : Nat) :
    x ∈ applyTomb ftss ss ↔ (x ∈ ss ∧ x ∉ oset ftss) := by
  cases ftss with
  | none => simp [applyTomb, oset]
  | some t =>
    by_cases hc : 0 < t.card
    · simp [applyTomb, hc, oset, Finset.mem_sdiff]
    · have ht : t = ∅ := by
        rw [← Finset.card_eq_zero]
        omega
      simp [applyTomb, hc, oset, ht]

theorem mem_mergeSet (tv : Option (Finset Nat)) (ss1 : Finset Nat) (x : Nat) :
    x ∈ mergeSet tv ss1 ↔ (x ∈ ss1 ∨ x ∈ oset tv) := by
  cases tv with
  | none => simp [mergeSet, oset]
  | some s => simp [mergeSet, oset, Finset.mem_union]

/-- Characterization of the tombstone loop, over the oldest-first processing list:
`x` survives iff some processed file contributed it and no tombstone applied at a
later step removes it — where the tombstone set of step `u` is applied only at step
`u + 1` (so the last processed = newest file's tombstones are never applied), or `x`
was in the initial accumulator and survives every subtraction. -/
theorem tvLoop_char (name key value : List Nat) :
    ∀ (L : List File) (tvs tms : List (Option (Finset Nat))) (ss : Finset Nat)
      (ftss : Option (Finset Nat)),
      L.map (fun f => f.tagValueSeriesIDSet name key value) = tvs.map Except.ok →
      L.map (fun f => f.tombstoneSeriesIDSet) = tms.map Except.ok →
      ∃ R, tvLoop name key value L ss ftss = .ok R ∧
        ∀ x, x ∈ R ↔
          ((∃ t, t < tvs.length ∧ x ∈ oset (tvs.getD t none) ∧
              ∀ u, t ≤ u → u + 1 < tvs.length → x ∉ oset (tms.getD u none)) ∨
            (x ∈ ss ∧ (tvs ≠ [] → x ∉ oset ftss) ∧
              ∀ u, u + 1 < tvs.length → x ∉ oset (tms.getD u none))) := by
  intro L
  induction L with
  | nil =>
    intro tvs tms ss ftss htv htm
    have htvs : tvs = [] := by
      cases tvs with
      | nil => rfl
      | cons a l => simp at htv
    subst htvs
    refine ⟨ss, rfl, ?_⟩
    intro x
    simp
  | cons f L' ih =>
    intro tvs tms ss ftss htv htm
    cases tvs with
    | nil => simp at htv
    | cons tv tvs' =>
      cases tms with
      | nil => simp at htm
      | cons tm tms' =>
        simp only [List.map_cons, List.cons.injEq] at htv htm
        obtain ⟨hfv, htv'⟩ := htv
        obtain ⟨hft, htm'⟩ := htm
        obtain ⟨R, hR, hchar⟩ :=
          ih tvs' tms' (mergeSet tv (applyTomb ftss ss)) tm htv' htm'
        refine ⟨R, ?_, ?_⟩
        · rw [tvLoop, hfv, hft]
          exact hR
        · intro x
          rw [hchar x]
          rw [mem_mergeSet, mem_applyTomb]
          constructor
          · rintro (⟨t', ht', hx, hall⟩ | ⟨hx2, htmx, hall⟩)
            · -- a later (newer) processed file contributed x
              left
              refine ⟨t' + 1, by simpa using Nat.succ_lt_succ ht', by simpa using hx, ?_⟩
              intro u hu1 hu2
              cases u with
              | zero => omega
              | succ u' =>
                simp only [List.getD_cons_succ]
                exact hall u' (by omega) (by simpa using hu2)
            · rcases hx2 with ⟨hss, hfts⟩ | hxtv
              · -- x came from the initial accumulator
                right
                refine ⟨hss, fun _ => hfts, ?_⟩
                intro u hu
                cases u with
                | zero =>
                  simp only [List.getD_cons_zero]
                  apply htmx
                  intro hnil
                  rw [hnil] at hu
                  simp at hu
                | succ u' =>
                  simp only [List.getD_cons_succ]
                  exact hall u' (by simpa using hu)
              · -- the head (oldest processed) file contributed x
                left
                refine ⟨0, by simp, by simpa using hxtv, ?_⟩
                intro u _ hu2
                cases u with
                | zero =>
                  simp only [List.getD_cons_zero]
                  apply htmx
                  intro hnil
                  rw [hnil] at hu2
                  simp at hu2
                | succ u' =>
                  simp only [List.getD_cons_succ]
                  exact hall u' (by simpa using hu2)
          · rintro (⟨t, ht, hx, hall⟩ | ⟨hss, hfts, hall⟩)
            · cases t with
              | zero =>
                -- contribution of the head file
                right
                refine ⟨Or.inr (by simpa using hx), ?_, ?_⟩
                · intro hne
                  have hpos : 0 < tvs'.length := List.length_pos.mpr hne
                  have := hall 0 (Nat.le_refl 0) (by simpa using Nat.succ_lt_succ hpos)
                  simpa using this
                · intro u' hu'
                  have := hall (u' + 1) (by omega) (by simpa using Nat.succ_lt_succ hu')
                  simpa using this
              | succ t' =>
                left
                refine ⟨t', by simpa using Nat.lt_of_succ_lt_succ ht, by simpa using hx, ?_⟩
                intro u' hu1 hu2
                have := hall (u' + 1) (by omega) (by simpa using Nat.succ_lt_succ hu2)
                simpa using this
            · right
              refine ⟨Or.inl ⟨hss, hfts (by simp)⟩, ?_, ?_⟩
              · intro hne
                have hpos : 0 < tvs'.length := List.length_pos.mpr hne
                have := hall 0 (by simpa using Nat.succ_lt_succ hpos)
                simpa using this
              · intro u' hu'
                have := hall (u' + 1) (by simpa using Nat.succ_lt_succ hu')
                simpa using this

theorem getD_reverse {α : Type} (l : List α) (i : Nat) (d : α) (h : i < l.length) :
    l.reverse.getD i d = l.getD (l.length - 1 - i) d := by
  rw [List.getD_eq_getElem?_getD, List.getD_eq_getElem?_getD, List.getElem?_reverse h]

/-- Newest-first characterization of `FileSet.TagValueSeriesIDIterator`: a series
`x` is in the result iff some file `j` (0 = newest) contributes it and no file `i`
with `1 ≤ i ≤ j` tombstones it.  In particular the newest file's (index `0`)
tombstone set is never applied. -/
theorem tagValueSeriesIDIterator_char (files : List File) (name key value : List Nat)
    (tvs tms : List (Option (Finset Nat)))
    (htv : files.map (fun f => f.tagValueSeriesIDSet name key value) = tvs.map Except.ok)
    (htm : files.map (fun f => f.tombstoneSeriesIDSet) = tms.map Except.ok) :
    ∃ R, tagValueSeriesIDIterator files name key value = .ok R ∧
      ∀ x, x ∈ R ↔ ∃ j, j < files.length ∧ x ∈ oset (tvs.getD j none) ∧
        ∀ i, 1 ≤ i → i ≤ j → x ∉ oset (tms.getD i none) := by
  have hlen : files.length = tvs.length := by
    have := congrArg List.length htv
    simpa using this
  have hlen2 : files.length = tms.length := by
    have := congrArg List.length htm
    simpa using this
  have htvR : files.reverse.map (fun f => f.tagValueSeriesIDSet name key value) =
      tvs.reverse.map Except.ok := by
    rw [List.map_reverse, htv, List.map_reverse]
  have htmR : files.reverse.map (fun f => f.tombstoneSeriesIDSet) =
      tms.reverse.map Except.ok := by
    rw [List.map_reverse, htm, List.map_reverse]
  obtain ⟨R, hok, hchar⟩ :=
    tvLoop_char name key value files.reverse tvs.reverse tms.reverse ∅ none htvR htmR
  refine ⟨R, hok, ?_⟩
  intro x
  rw [hchar x]
  constructor
  · rintro (⟨t, ht, hx, hall⟩ | ⟨hx, -, -⟩)
    · have htm' : t < tvs.length := by simpa using ht
      refine ⟨tvs.length - 1 - t, by omega, ?_, ?_⟩
      · rwa [getD_reverse tvs t none htm',
          show tvs.length - 1 - t = tvs.length - 1 - t from rfl] at hx
      · intro i hi1 hij
        have h1 : t ≤ tvs.length - 1 - i := by omega
        have h2 : tvs.length - 1 - i + 1 < tvs.length := by omega
        have hstep := hall (tvs.length - 1 - i) h1 (by simpa using h2)
        rw [getD_reverse tms (tvs.length - 1 - i) none (by omega)] at hstep
        have hIdx : tms.length - 1 - (tvs.length - 1 - i) = i := by omega
        rwa [hIdx] at hstep
    · simp at hx
  · rintro ⟨j, hj, hx, hall⟩
    left
    have hjm : j < tvs.length := by omega
    refine ⟨tvs.length - 1 - j, by simpa using (show tvs.length - 1 - j < tvs.length by omega),
      ?_, ?_⟩
    · rw [getD_reverse tvs _ none (by omega)]
      have hIdx : tvs.length - 1 - (tvs.length - 1 - j) = j := by omega
      rwa [hIdx]
    · intro u hu1 hu2
      have hu2' : u + 1 < tvs.length := by simpa using hu2
      rw [getD_reverse tms u none (by omega)]
      have h1 : 1 ≤ tms.length - 1 - u := by omega
      have h2 : tms.length - 1 - u ≤ j := by omega
      exact hall (tms.length - 1 - u) h1 h2

/-! ### Concrete files for the tombstone scenarios -/

/-- An older file containing series {1,2,3} for the queried tag value. -/
def c1OlderFile : File :=
  { metric := fun _ => none
    tagKeyIterator := fun _ => none
    tagValueSeriesIDSet := fun _ _ _ => .ok (some {1, 2, 3})
    tombstoneSeriesIDSet := .ok none }

/-- A newer file contributing no matching series but tombstoning series 2. -/
def c1NewerFile : File :=
  { metric := fun _ => none
    tagKeyIterator := fun _ => none
    tagValueSeriesIDSet := fun _ _ _ => .ok none
    tombstoneSeriesIDSet := .ok (some {2}) }

/-- A neutral newest file (no matching series, no tombstones). -/
def c1TopFile : File :=
  { metric := fun _ => none
    tagKeyIterator := fun _ => none
    tagValueSeriesIDSet := fun _ _ _ => .ok none
    tombstoneSeriesIDSet := .ok none }

/-- C1 counterexample: for the FileSet `[newer, older]` where the older file's
`TagValueSeriesIDSet(m,k,v)` is `{1,2,3}`, the newer file's `TombstoneSeriesIDSet()`
is `{2}` and the newer file contributes no matching series, the iterator's underlying
set is `{1,2,3}` — the newest file's tombstones are never applied — and not the
claimed `{1,3}`. -/
theorem claim1_counterexample :
    c1NewerFile.tombstoneSeriesIDSet = .ok (some ({2} : Finset Nat)) ∧
    c1NewerFile.tagValueSeriesIDSet [0] [1] [2] = .ok none ∧
    c1OlderFile.tagValueSeriesIDSet [0] [1] [2] = .ok (some ({1, 2, 3} : Finset Nat)) ∧
    c1OlderFile.tombstoneSeriesIDSet = .ok none ∧
    tagValueSeriesIDIterator [c1NewerFile, c1OlderFile] [0] [1] [2] =
      .ok ({1, 2, 3} : Finset Nat) ∧
    ({1, 2, 3} : Finset Nat) ≠ ({1, 3} : Finset Nat) := by
  refine ⟨rfl, rfl, rfl, rfl, by rfl, by decide⟩

/-- C1 (amended): `FileSet.TagValueSeriesIDIterator(m,k,v)` returns the set `R` with
`x ∈ R` iff some file `j` (index 0 = newest) has `x` in its
`TagValueSeriesIDSet(m,k,v)` and no file `i` with `1 ≤ i ≤ j` has `x` in its
`TombstoneSeriesIDSet()`.  Hence a series present in an older file and tombstoned by
a strictly newer file is excluded only when the tombstoning file is not the newest
file of the set (its tombstones are applied just before a yet newer file is merged);
in the two-file scenario of the original claim the result is `{1,2,3}`, while
prepending a neutral newest file yields `{1,3}`.  A series present in a newer file is
included regardless of older files' tombstones. -/
theorem claim1_theorem (files : List File) (name key value : List Nat)
    (tvs tms : List (Option (Finset Nat)))
    (htv : files.map (fun f => f.tagValueSeriesIDSet name key value) = tvs.map Except.ok)
    (htm : files.map (fun f => f.tombstoneSeriesIDSet) = tms.map Except.ok) :
    ∃ R, tagValueSeriesIDIterator files name key value = .ok R ∧
      ∀ x, x ∈ R ↔ ∃ j, j < files.length ∧ x ∈ oset (tvs.getD j none) ∧
        ∀ i, 1 ≤ i → i ≤ j → x ∉ oset (tms.getD i none) :=
  tagValueSeriesIDIterator_char files name key value tvs tms htv htm

/-- C1 witness: the characterization applied to the three-file scenario
`[neutral-top, tombstoner {2}, older {1,2,3}]`. -/
theorem claim1_witness :
    ([c1TopFile, c1NewerFile, c1OlderFile].map
        (fun f => f.tagValueSeriesIDSet [0] [1] [2]) =
      ([none, none, some ({1, 2, 3} : Finset Nat)]).map Except.ok) ∧
    ([c1TopFile, c1NewerFile, c1OlderFile].map (fun f => f.tombstoneSeriesIDSet) =
      ([none, some ({2} : Finset Nat), none]).map Except.ok) ∧
    (∃ R, tagValueSeriesIDIterator [c1TopFile, c1NewerFile, c1OlderFile] [0] [1] [2] =
        .ok R ∧
      ∀ x, x ∈ R ↔ ∃ j, j < ([c1TopFile, c1NewerFile, c1OlderFile] : List File).length ∧
        x ∈ oset (([none, none, some ({1, 2, 3} : Finset Nat)]).getD j none) ∧
        ∀ i, 1 ≤ i → i ≤ j →
          x ∉ oset (([none, some ({2} : Finset Nat), none]).getD i none)) :=
  ⟨rfl, rfl, claim1_theorem _ _ _ _ _ _ rfl rfl⟩

theorem initSlots_sorted {α : Type} (k : α → List Nat) (srcs : List (List α))
    (hs : ∀ src ∈ srcs, List.Pairwise (fun a b => bytesCompare (k a) (k b) = .lt) src) :
    ∀ s ∈ initSlots srcs, availPairwise k s := by
  intro s hsm
  rcases List.mem_map.mp hsm with ⟨l, hl, rfl⟩
  rw [availPairwise]
  simpa [slotAvail] using hs l hl

theorem initSlots_filterMap {α β : Type} (srcs : List (List α)) (F : Slot α → Option β) :
    (initSlots srcs).filterMap F = srcs.filterMap (fun l => F ⟨none, l⟩) := by
  rw [initSlots, List.filterMap_map]
  rfl

/-- The merge-iterator invariant restated over the source lists. -/
theorem mergeStream_sources_props {α : Type} (k : α → List Nat) (srcs : List (List α))
    (hs : ∀ src ∈ srcs, List.Pairwise (fun a b => bytesCompare (k a) (k b) = .lt) src) :
    (∀ g ∈ mergeStream k (initSlots srcs),
        g ≠ [] ∧ (∀ e ∈ g, k e = groupKeyOf k g) ∧
        g = srcs.filterMap (fun src => src.find? (fun e => decide (k e = groupKeyOf k g)))) ∧
    List.Pairwise (fun g h => bytesCompare (groupKeyOf k g) (groupKeyOf k h) = .lt)
      (mergeStream k (initSlots srcs)) ∧
    (∀ g ∈ mergeStream k (initSlots srcs), ∀ e ∈ g, ∃ src ∈ srcs, e ∈ src) := by
  obtain ⟨q1, q2, q3⟩ :=
    mergeStreamF_props k (slotsSize (initSlots srcs)) (initSlots srcs)
      (initSlots_sorted k srcs hs)
  refine ⟨?_, q2, ?_⟩
  · intro g hg
    obtain ⟨hne, huni, hP3⟩ := q1 g hg
    refine ⟨hne, huni, ?_⟩
    have hstep : (initSlots srcs).filterMap
        (fun s => (slotAvail s).find? (fun e => decide (k e = groupKeyOf k g))) =
        srcs.filterMap (fun src => src.find? (fun e => decide (k e = groupKeyOf k g))) := by
      rw [initSlots_filterMap]
      apply List.filterMap_congr
      intro l _
      simp [slotAvail]
    exact hP3.trans hstep
  · intro g hg e he
    rcases q3 g hg e he with ⟨s, hsm, hav⟩
    rcases List.mem_map.mp hsm with ⟨l, hl, rfl⟩
    refine ⟨l, hl, ?_⟩
    simpa [slotAvail] using hav

theorem slotAvail_clearSlot_subset {α : Type} (k : α → List Nat) (key : List Nat)
    (s : Slot α) : ∀ x ∈ slotAvail (clearSlot k key s), x ∈ slotAvail s := by
  intro x hx
  cases hb : s.buf with
  | none =>
    rw [clearSlot] at hx
    rw [hb] at hx
    exact hx
  | some e =>
    by_cases hk : k e = key
    · rw [clearSlot, hb] at hx
      simp only [hk, if_pos rfl] at hx
      simp only [slotAvail, hb]
      simp [slotAvail] at hx
      simp [hx]
    · rw [clearSlot, hb] at hx
      simp only [hk, if_neg hk] at hx
      exact hx

/-- Elements emitted by the merge iterator always come from its sources (no
sortedness assumption needed). -/
theorem mergeStreamF_sound {α : Type} (k : α → List Nat) :
    ∀ (fuel : Nat) (slots : List (Slot α)),
      ∀ g ∈ mergeStreamF k fuel slots, ∀ e ∈ g, ∃ s ∈ slots, e ∈ slotAvail s := by
  intro fuel
  induction fuel with
  | zero =>
    intro slots g hg
    simp [mergeStreamF] at hg
  | succ n ih =>
    intro slots g hg e he
    cases hm : findMinLoop k (refill slots) none with
    | none =>
      have hmn : mergeNext k slots = (none, refill slots) := by rw [mergeNext, hm]
      rw [mergeStreamF, hmn] at hg
      simp at hg
    | some kmin =>
      have hmn : mergeNext k slots =
          (some (collectGroup k kmin (refill slots)), clearGroup k kmin (refill slots)) := by
        rw [mergeNext, hm]
      rw [mergeStreamF, hmn] at hg
      rcases List.mem_cons.mp hg with rfl | hg'
      · rcases (mem_collectGroup k kmin (refill slots) e).mp he with ⟨sR, hsR, hb, -⟩
        rcases List.mem_map.mp hsR with ⟨s, hsm, heq⟩
        refine ⟨s, hsm, ?_⟩
        rw [← slotAvail_refillSlot s, heq]
        simp [slotAvail, hb]
      · rcases ih (clearGroup k kmin (refill slots)) g hg' e he with ⟨s'', hs'', hav⟩
        rcases List.mem_map.mp hs'' with ⟨sR, hsR, heq⟩
        rcases List.mem_map.mp hsR with ⟨s, hsm, heq2⟩
        refine ⟨s, hsm, ?_⟩
        rw [← slotAvail_refillSlot s, heq2]
        apply slotAvail_clearSlot_subset k kmin
        rw [heq]
        exact hav

/-- C2: for per-file metric iterators in newest-first order (each sorted strictly
increasing), every merged group equals the per-source same-name elements in file
order, so its `Deleted()` flag is the `Deleted()` flag of the element from the first
(newest) file containing the name — regardless of older files' elements — and the
tsdb adapter's output is exactly the merged stream with the deleted groups skipped. -/
theorem claim2_theorem (srcs : List (List MetricElem))
    (hs : ∀ src ∈ srcs, List.Pairwise (fun a b => bytesCompare a.name b.name = .lt) src) :
    (∀ g ∈ metricMergeStream (initSlots srcs),
        g ≠ [] ∧
        g = srcs.filterMap
          (fun src => src.find? (fun e => decide (e.name = metricMergeElemName g))) ∧
        metricMergeElemDeleted g =
          (((srcs.filterMap
              (fun src => src.find? (fun e => decide (e.name = metricMergeElemName g)))).head?).map
            MetricElem.deleted).getD false) ∧
    tsdbMetricAdapterStream (initSlots srcs) =
      ((metricMergeStream (initSlots srcs)).filter
        (fun g => !metricMergeElemDeleted g)).map metricMergeElemName := by
  obtain ⟨q1, -, -⟩ := mergeStream_sources_props MetricElem.name srcs hs
  constructor
  · intro g hg
    obtain ⟨hne, -, hP3⟩ := q1 g hg
    have hP3' : g = srcs.filterMap
        (fun src => src.find? (fun e => decide (e.name = metricMergeElemName g))) := hP3
    refine ⟨hne, hP3', ?_⟩
    obtain ⟨e, t, hgc⟩ := List.exists_cons_of_ne_nil hne
    rw [← hP3', hgc]
    simp [metricMergeElemDeleted, groupDeletedOf]
  · exact adapterStreamF_eq_filter MetricElem.name MetricElem.deleted
      (slotsSize (initSlots srcs)) (initSlots srcs)

/-- Sources for the C2 witness: newer file marks name `[5]` deleted, older file has
it live. -/
def c2Srcs : List (List MetricElem) :=
  [[⟨[5], true⟩], [⟨[5], false⟩]]

/-- C2 witness at a concrete two-file input. -/
theorem claim2_witness :
    (∀ src ∈ c2Srcs, List.Pairwise (fun a b => bytesCompare a.name b.name = .lt) src) ∧
    ((∀ g ∈ metricMergeStream (initSlots c2Srcs),
        g ≠ [] ∧
        g = c2Srcs.filterMap
          (fun src => src.find? (fun e => decide (e.name = metricMergeElemName g))) ∧
        metricMergeElemDeleted g =
          (((c2Srcs.filterMap
              (fun src => src.find? (fun e => decide (e.name = metricMergeElemName g)))).head?).map
            MetricElem.deleted).getD false) ∧
      tsdbMetricAdapterStream (initSlots c2Srcs) =
        ((metricMergeStream (initSlots c2Srcs)).filter
          (fun g => !metricMergeElemDeleted g)).map metricMergeElemName) :=
  ⟨by decide, claim2_theorem c2Srcs (by decide)⟩

/-- C3: for per-file iterators each sorted strictly increasing by byte-wise key, the
merged metric / tag-value iterators emit groups whose keys are pairwise strictly
increasing (hence no two groups share a key), every group is nonempty and
key-uniform, and every group consists of exactly the same-key element of each source
containing the key, in file (newest-first) order. -/
theorem claim3_theorem (msrcs : List (List MetricElem)) (vsrcs : List (List TagValueElem))
    (hm : ∀ src ∈ msrcs, List.Pairwise (fun a b => bytesCompare a.name b.name = .lt) src)
    (hv : ∀ src ∈ vsrcs, List.Pairwise (fun a b => bytesCompare a.value b.value = .lt) src) :
    (List.Pairwise
        (fun g h => bytesCompare (metricMergeElemName g) (metricMergeElemName h) = .lt)
        (metricMergeStream (initSlots msrcs)) ∧
      ∀ g ∈ metricMergeStream (initSlots msrcs),
        g ≠ [] ∧ (∀ e ∈ g, e.name = metricMergeElemName g) ∧
        g = msrcs.filterMap
          (fun src => src.find? (fun e => decide (e.name = metricMergeElemName g)))) ∧
    (List.Pairwise
        (fun g h => bytesCompare (tagValueMergeElemValue g) (tagValueMergeElemValue h) = .lt)
        (tagValueMergeStream (initSlots vsrcs)) ∧
      ∀ g ∈ tagValueMergeStream (initSlots vsrcs),
        g ≠ [] ∧ (∀ e ∈ g, e.value = tagValueMergeElemValue g) ∧
        g = vsrcs.filterMap
          (fun src => src.find? (fun e => decide (e.value = tagValueMergeElemValue g)))) := by
  obtain ⟨mq1, mq2, -⟩ := mergeStream_sources_props MetricElem.name msrcs hm
  obtain ⟨vq1, vq2, -⟩ := mergeStream_sources_props TagValueElem.value vsrcs hv
  exact ⟨⟨mq2, mq1⟩, ⟨vq2, vq1⟩⟩

def c3MSrcs : List (List MetricElem) :=
  [[⟨[1], false⟩, ⟨[3], false⟩], [⟨[2], false⟩, ⟨[3], true⟩]]

def c3VSrcs : List (List TagValueElem) :=
  [[⟨[4], false⟩], [⟨[4], true⟩, ⟨[6], false⟩]]

/-- C3 witness at concrete two-file inputs. -/
theorem claim3_witness :
    (∀ src ∈ c3MSrcs, List.Pairwise (fun a b => bytesCompare a.name b.name = .lt) src) ∧
    (∀ src ∈ c3VSrcs, List.Pairwise (fun a b => bytesCompare a.value b.value = .lt) src) ∧
    ((List.Pairwise
        (fun g h => bytesCompare (metricMergeElemName g) (metricMergeElemName h) = .lt)
        (metricMergeStream (initSlots c3MSrcs)) ∧
      ∀ g ∈ metricMergeStream (initSlots c3MSrcs),
        g ≠ [] ∧ (∀ e ∈ g, e.name = metricMergeElemName g) ∧
        g = c3MSrcs.filterMap
          (fun src => src.find? (fun e => decide (e.name = metricMergeElemName g)))) ∧
    (List.Pairwise
        (fun g h => bytesCompare (tagValueMergeElemValue g) (tagValueMergeElemValue h) = .lt)
        (tagValueMergeStream (initSlots c3VSrcs)) ∧
      ∀ g ∈ tagValueMergeStream (initSlots c3VSrcs),
        g ≠ [] ∧ (∀ e ∈ g, e.value = tagValueMergeElemValue g) ∧
        g = c3VSrcs.filterMap
          (fun src => src.find? (fun e => decide (e.value = tagValueMergeElemValue g))))) :=
  ⟨by decide, by decide, claim3_theorem c3MSrcs c3VSrcs (by decide) (by decide)⟩

/-- C7: `tagKeyMergeElem.TagValueIterator()` accumulates exactly the tag-value
sub-iterators of the leading constituents up to and including the first constituent
marked deleted, and every element the resulting merged tag-value iterator can emit
comes from one of those sub-iterators — tag-value data of files older than a
tombstoned tag key never appears. -/
theorem claim7_theorem (p : List TagKeyElem) :
    tagKeyMergeElemTVSources p =
      (p.take (p.findIdx TagKeyElem.deleted + 1)).map TagKeyElem.tagValueIterator ∧
    (∀ slots, tagKeyMergeElemTagValueIterator p = some slots →
      ∀ fuel g e, g ∈ mergeStreamF TagValueElem.value fuel slots → e ∈ g →
        ∃ tke ∈ p.take (p.findIdx TagKeyElem.deleted + 1), e ∈ tke.tagValueIterator) := by
  have hsrc : tagKeyMergeElemTVSources p =
      (p.take (p.findIdx TagKeyElem.deleted + 1)).map TagKeyElem.tagValueIterator := by
    induction p with
    | nil => rfl
    | cons a rest ih =>
      cases hd : a.deleted with
      | true =>
        simp [tagKeyMergeElemTVSources, hd, List.findIdx_cons]
      | false =>
        simp [tagKeyMergeElemTVSources, hd, List.findIdx_cons, ih]
  refine ⟨hsrc, ?_⟩
  intro slots hslots fuel g e hg he
  cases p with
  | nil => simp [tagKeyMergeElemTagValueIterator] at hslots
  | cons a rest =>
    rw [tagKeyMergeElemTagValueIterator] at hslots
    injection hslots with hslots
    subst hslots
    rcases mergeStreamF_sound TagValueElem.value fuel _ g hg e he with ⟨s, hsm, hav⟩
    rcases List.mem_map.mp hsm with ⟨src, hsrcm, rfl⟩
    rw [hsrc] at hsrcm
    rcases List.mem_map.mp hsrcm with ⟨tke, htke, rfl⟩
    refine ⟨tke, htke, ?_⟩
    simpa [slotAvail] using hav

def c7P : List TagKeyElem :=
  [⟨[1], true, [⟨[7], false⟩]⟩, ⟨[1], false, [⟨[8], false⟩]⟩]

/-- C7 witness: with the newest constituent deleted, only its sub-iterator is used
and the merged output's elements come from it. -/
theorem claim7_witness :
    (tagKeyMergeElemTagValueIterator c7P =
      some (initSlots [[(⟨[7], false⟩ : TagValueElem)]])) ∧
    ([(⟨[7], false⟩ : TagValueElem)] ∈
      mergeStreamF TagValueElem.value 1 (initSlots [[(⟨[7], false⟩ : TagValueElem)]])) ∧
    ((⟨[7], false⟩ : TagValueElem) ∈ [(⟨[7], false⟩ : TagValueElem)]) ∧
    (∃ tke ∈ c7P.take (c7P.findIdx TagKeyElem.deleted + 1),
      (⟨[7], false⟩ : TagValueElem) ∈ tke.tagValueIterator) :=
  ⟨rfl, by decide, by decide,
    (claim7_theorem c7P).2 _ rfl 1 [(⟨[7], false⟩ : TagValueElem)] (⟨[7], false⟩ : TagValueElem)
      (by decide) (by decide)⟩

/-! ### `FileSet.Metric` (C6) -/

theorem fsMetric_eq_none (files : List File) (name : List Nat)
    (h : ∀ f ∈ files, f.metric name = none) : fsMetric files name = none := by
  induction files with
  | nil => rfl
  | cons f rest ih =>
    rw [fsMetric, h f (List.mem_cons_self _ _)]
    exact ih (fun f' hf' => h f' (List.mem_cons_of_mem _ hf'))

theorem fsMetric_first (files : List File) (name : List Nat) :
    ∀ (j : Nat) (fj : File) (e : MetricElem), files[j]? = some fj →
      (∀ f ∈ files.take j, f.metric name = none) →
      fj.metric name = some e →
      fsMetric files name = (if e.deleted then none else some e) ∧
      ∀ rest', fsMetric (files.take (j + 1) ++ rest') name = fsMetric files name := by
  induction files with
  | nil =>
    intro j fj e hj
    simp at hj
  | cons f rest ih =>
    intro j fj e hj hnone he
    cases j with
    | zero =>
      simp only [List.getElem?_cons_zero] at hj
      injection hj with hj
      subst hj
      constructor
      · rw [fsMetric, he]
      · intro rest'
        rw [show (f :: rest).take 1 ++ rest' = f :: rest' from rfl]
        rw [fsMetric, he, fsMetric, he]
    | succ j' =>
      simp only [List.getElem?_cons_succ] at hj
      have hf : f.metric name = none := by
        apply hnone
        simp [List.take_succ_cons]
      have hrest : ∀ f' ∈ rest.take j', f'.metric name = none := by
        intro f' hf'
        apply hnone
        simp [List.take_succ_cons, hf']
      obtain ⟨hval, hframe⟩ := ih j' fj e hj hrest he
      constructor
      · rw [fsMetric, hf]
        exact hval
      · intro rest'
        rw [show (f :: rest).take (j' + 1 + 1) ++ rest' =
          f :: (rest.take (j' + 1) ++ rest') from by simp [List.take_succ_cons]]
        rw [fsMetric, hf, fsMetric, hf]
        exact hframe rest'

/-- C6: `FileSet.Metric(name)` returns the element of the first (newest) file with a
non-absent element — `nil` instead if that element is deleted — never consulting
older files (the result is unchanged if everything after the first match is
replaced); if no file contains the name the result is `nil`. -/
theorem claim6_theorem (files : List File) (name : List Nat) :
    ((∀ f ∈ files, f.metric name = none) → fsMetric files name = none) ∧
    (∀ (j : Nat) (fj : File) (e : MetricElem), files[j]? = some fj →
      (∀ f ∈ files.take j, f.metric name = none) →
      fj.metric name = some e →
      fsMetric files name = (if e.deleted then none else some e) ∧
      ∀ rest', fsMetric (files.take (j + 1) ++ rest') name = fsMetric files name) :=
  ⟨fsMetric_eq_none files name, fsMetric_first files name⟩

/-- A file with no metrics. -/
def c6FileA : File :=
  { metric := fun _ => none
    tagKeyIterator := fun _ => none
    tagValueSeriesIDSet := fun _ _ _ => .ok none
    tombstoneSeriesIDSet := .ok none }

/-- A file holding metric `[9]` marked deleted. -/
def c6FileB : File :=
  { metric := fun n => if n = [9] then some ⟨[9], true⟩ else none
    tagKeyIterator := fun _ => none
    tagValueSeriesIDSet := fun _ _ _ => .ok none
    tombstoneSeriesIDSet := .ok none }

/-- C6 witness: the first match (in the older file, deleted) makes the lookup
logically absent. -/
theorem claim6_witness :
    (([c6FileA, c6FileB] : List File)[1]? = some c6FileB) ∧
    (∀ f ∈ ([c6FileA, c6FileB] : List File).take 1, f.metric [9] = none) ∧
    (c6FileB.metric [9] = some ⟨[9], true⟩) ∧
    (fsMetric [c6FileA, c6FileB] [9] =
      (if (⟨[9], true⟩ : MetricElem).deleted then none else some ⟨[9], true⟩) ∧
    ∀ rest', fsMetric (([c6FileA, c6FileB] : List File).take (1 + 1) ++ rest') [9] =
      fsMetric [c6FileA, c6FileB] [9]) := by
  refine ⟨rfl, ?_, rfl, ?_⟩
  · intro f hf
    simp at hf
    subst hf
    rfl
  · exact (claim6_theorem [c6FileA, c6FileB] [9]).2 1 c6FileB ⟨[9], true⟩ rfl
      (by intro f hf; simp at hf; subst hf; rfl) rfl

/-! ## `FileSet.MustReplace` / `PrependLogFile` (file_set.go)

Go `File` interface values are compared with `==` (object identity); we model file
identities as `Nat` tokens.  Go panics (the `assert`, the explicit `panic`s and the
slice index-out-of-range runtime panic) are modelled as `Except.error`. -/

/-- The "find index of first old file" loop: returns the loop index on `break`,
panics when it reaches the last element without a match; an empty file list leaves
`i = 0` without panicking (the out-of-range panic happens later). -/
def firstIdxAux (f0 : Nat) : List Nat → Nat → Except String Nat
  | [], i => .ok i
  | [x], i => if x = f0 then .ok i else .error "first replacement file not found"
  | x :: y :: rest, i =>
    if x = f0 then .ok i else firstIdxAux f0 (y :: rest) (i + 1)

/-- The "ensure all old files are contiguous" loop: `fs.files[i+j] != oldFiles[j]`
is the explicit panic, indexing past the end is the Go runtime panic. -/
def contigCheckAux (fsFiles : List Nat) (i : Nat) : List Nat → Nat → Except String Unit
  | [], _ => .ok ()
  | o :: rest, j =>
    match fsFiles[i + j]? with
    | none => .error "runtime error: index out of range"
    | some x =>
      if x = o then contigCheckAux fsFiles i rest (j + 1)
      else .error "cannot replace non-contiguous files"

/-- `FileSet.MustReplace` on the file lists: `assert(len(oldFiles) > 0)`, find the
first occurrence of `oldFiles[0]`, check contiguity, then build
`files[:i] ++ [newFile] ++ files[i+len(oldFiles):]`. -/
def mustReplace (fsFiles oldFiles : List Nat) (newFile : Nat) : Except String (List Nat) :=
  match oldFiles with
  | [] => .error "assert failed: cannot replace empty files"
  | f0 :: _ =>
    match firstIdxAux f0 fsFiles 0 with
    | .error e => .error e
    | .ok i =>
      match contigCheckAux fsFiles i oldFiles 0 with
      | .error e => .error e
      | .ok _ => .ok (fsFiles.take i ++ newFile :: fsFiles.drop (i + oldFiles.length))

/-- `FileSet` structural fields (`levels`, `sfile`, `files`, `manifestSize`);
`levels` entries and the series file are opaque tokens. -/
structure FileSetM where
  levels : List Nat
  sfile : Option Nat
  files : List Nat
  manifestSize : Int
  deriving DecidableEq, Repr

/-- `FileSet.SeriesFile()`. -/
def fsSeriesFile (fs : FileSetM) : Option Nat := fs.sfile

/-- `FileSet.PrependLogFile(f)`: new FileSet with `f` at index 0; copies `levels`
and `sfile` but not `manifestSize`. -/
def fsPrependLogFile (fs : FileSetM) (f : Nat) : FileSetM :=
  { levels := fs.levels, sfile := fs.sfile, files := f :: fs.files, manifestSize := 0 }

/-- `FileSet.MustReplace`: the new FileSet carries only `levels` and the new file
list; `sfile` and `manifestSize` are left at their zero values. -/
def fsMustReplace (fs : FileSetM) (oldFiles : List Nat) (newFile : Nat) :
    Except String FileSetM :=
  (mustReplace fs.files oldFiles newFile).map
    (fun other =>
      { levels := fs.levels, sfile := none, files := other, manifestSize := 0 })

theorem contigCheckAux_run : ∀ (olds : List Nat) (fsFiles : List Nat) (i j : Nat),
    contigCheckAux fsFiles i olds j = .ok () →
    (fsFiles.drop (i + j)).take olds.length = olds := by
  intro olds
  induction olds with
  | nil =>
    intro fsFiles i j _
    simp
  | cons o rest ih =>
    intro fsFiles i j h
    rw [contigCheckAux] at h
    split at h
    · exact absurd h (by simp)
    · rename_i x hx
      split at h
      · rename_i hxo
        subst hxo
        have hrec := ih fsFiles i (j + 1) h
        obtain ⟨hlt, hget⟩ := List.getElem?_eq_some.mp hx
        have hdrop : fsFiles.drop (i + j) = x :: fsFiles.drop (i + j + 1) := by
          rw [List.drop_eq_getElem_cons hlt, hget]
        rw [hdrop]
        simp only [List.length_cons, List.take_succ_cons, List.cons.injEq, true_and]
        have hadd : i + (j + 1) = i + j + 1 := by omega
        rw [hadd] at hrec
        exact hrec
      · exact absurd h (by simp)

theorem contigCheckAux_of_run : ∀ (olds : List Nat) (fsFiles : List Nat) (i j : Nat),
    (fsFiles.drop (i + j)).take olds.length = olds →
    contigCheckAux fsFiles i olds j = .ok () := by
  intro olds
  induction olds with
  | nil =>
    intro fsFiles i j _
    rfl
  | cons o rest ih =>
    intro fsFiles i j hrun
    cases hd : fsFiles.drop (i + j) with
    | nil => rw [hd] at hrun; simp at hrun
    | cons a tail =>
      rw [hd] at hrun
      simp only [List.length_cons, List.take_succ_cons, List.cons.injEq] at hrun
      obtain ⟨rfl, htail⟩ := hrun
      have hx : fsFiles[i + j]? = some a := by
        have h0 : (fsFiles.drop (i + j))[0]? = some a := by rw [hd]; simp
        rwa [List.getElem?_drop, Nat.add_zero] at h0
      simp only [contigCheckAux, hx, if_pos rfl]
      apply ih
      have hdropSucc : fsFiles.drop (i + (j + 1)) = tail := by
        have h1 : i + (j + 1) = (i + j) + 1 := by omega
        rw [h1, ← List.tail_drop, hd]
        rfl
      rw [hdropSucc]
      exact htail

theorem firstIdxAux_finds : ∀ (l : List Nat) (f0 : Nat) (base i0 : Nat),
    (∀ jj, jj < i0 → l[jj]? ≠ some f0) → l[i0]? = some f0 →
    firstIdxAux f0 l base = .ok (base + i0) := by
  intro l
  induction l with
  | nil =>
    intro f0 base i0 _ hx
    simp at hx
  | cons x rest ih =>
    intro f0 base i0 hall hx
    cases i0 with
    | zero =>
      simp only [List.getElem?_cons_zero] at hx
      injection hx with hx
      subst hx
      cases rest with
      | nil => simp [firstIdxAux]
      | cons y r => simp [firstIdxAux]
    | succ i0' =>
      have hxne : x ≠ f0 := by
        have := hall 0 (Nat.succ_pos _)
        simpa using this
      simp only [List.getElem?_cons_succ] at hx
      cases rest with
      | nil => simp at hx
      | cons y r =>
        rw [firstIdxAux, if_neg hxne]
        have hall' : ∀ jj, jj < i0' → (y :: r)[jj]? ≠ some f0 := by
          intro jj hjj
          have := hall (jj + 1) (by omega)
          simpa using this
        have := ih f0 (base + 1) i0' hall' hx
        rw [this]
        have : base + 1 + i0' = base + (i0' + 1) := by omega
        rw [this]

/-- C4: `MustReplace` fails fatally (modelled as an error value standing for a Go
panic) when `oldFiles` is empty, when `oldFiles[0]` is not present in the set's
files, and in general whenever `oldFiles` does not occur as a contiguous in-order
run inside the file list. -/
theorem claim4_theorem (fsFiles oldFiles : List Nat) (newFile : Nat) :
    (oldFiles = [] → ∃ msg, mustReplace fsFiles oldFiles newFile = .error msg) ∧
    (∀ f0, oldFiles.head? = some f0 → f0 ∉ fsFiles →
      ∃ msg, mustReplace fsFiles oldFiles newFile = .error msg) ∧
    ((¬ ∃ i, (fsFiles.drop i).take oldFiles.length = oldFiles) →
      ∃ msg, mustReplace fsFiles oldFiles newFile = .error msg) := by
  have part3 : (¬ ∃ i, (fsFiles.drop i).take oldFiles.length = oldFiles) →
      ∃ msg, mustReplace fsFiles oldFiles newFile = .error msg := by
    intro hno
    cases hres : mustReplace fsFiles oldFiles newFile with
    | error msg => exact ⟨msg, rfl⟩
    | ok res =>
      exfalso
      cases oldFiles with
      | nil =>
        rw [mustReplace] at hres
        simp at hres
      | cons f0 tl =>
        rw [mustReplace] at hres
        split at hres
        · simp at hres
        · rename_i i hfind
          split at hres
          · simp at hres
          · rename_i u hcontig
            have hrun := contigCheckAux_run (f0 :: tl) fsFiles i 0 (by
              cases u
              exact hcontig)
            exact hno ⟨i, by simpa using hrun⟩
  refine ⟨?_, ?_, part3⟩
  · intro h
    subst h
    exact ⟨_, rfl⟩
  · intro f0 hhead hnotin
    apply part3
    rintro ⟨i, hrunex⟩
    apply hnotin
    have hmem : f0 ∈ oldFiles := by
      cases oldFiles with
      | nil => simp at hhead
      | cons a tla =>
        simp only [List.head?_cons] at hhead
        injection hhead with hhead
        subst hhead
        exact List.mem_cons_self _ _
    rw [← hrunex] at hmem
    exact List.drop_subset _ _ (List.take_subset _ _ hmem)

/-- C4 witness: `oldFiles[0]` absent from the file list aborts. -/
theorem claim4_witness :
    (([5] : List Nat).head? = some 5) ∧ (5 ∉ ([1, 2] : List Nat)) ∧
    ∃ msg, mustReplace [1, 2] [5] 9 = .error msg :=
  ⟨rfl, by decide, (claim4_theorem [1, 2] [5] 9).2.1 5 rfl (by decide)⟩

/-- C5: on a FileSet whose (duplicate-free) file list contains `oldFiles` as a
contiguous run starting at index `i`, `MustReplace` succeeds and returns exactly
`files[:i] ++ [newFile] ++ files[i+len(oldFiles):]` — the untouched files are the
identical objects in their original order. -/
theorem claim5_theorem (fsFiles oldFiles : List Nat) (newFile : Nat) (i : Nat)
    (hnd : fsFiles.Nodup) (hne : oldFiles ≠ [])
    (hrun : (fsFiles.drop i).take oldFiles.length = oldFiles) :
    mustReplace fsFiles oldFiles newFile =
      .ok (fsFiles.take i ++ newFile :: fsFiles.drop (i + oldFiles.length)) := by
  obtain ⟨f0, tl, rfl⟩ := List.exists_cons_of_ne_nil hne
  have hx : fsFiles[i]? = some f0 := by
    cases hd : fsFiles.drop i with
    | nil => rw [hd] at hrun; simp at hrun
    | cons a t =>
      rw [hd] at hrun
      simp only [List.length_cons, List.take_succ_cons, List.cons.injEq] at hrun
      obtain ⟨rfl, -⟩ := hrun
      have h0 : (fsFiles.drop i)[0]? = some a := by rw [hd]; simp
      rwa [List.getElem?_drop, Nat.add_zero] at h0
  have hall : ∀ jj, jj < i → fsFiles[jj]? ≠ some f0 := by
    intro jj hjj hcon
    obtain ⟨hilt, higet⟩ := List.getElem?_eq_some.mp hx
    obtain ⟨hjlt, hjget⟩ := List.getElem?_eq_some.mp hcon
    have := (List.pairwise_iff_getElem.mp hnd) jj i hjlt hilt hjj
    rw [higet, hjget] at this
    exact this rfl
  have hfind : firstIdxAux f0 fsFiles 0 = .ok i := by
    have := firstIdxAux_finds fsFiles f0 0 i hall hx
    simpa using this
  have hcontig : contigCheckAux fsFiles i (f0 :: tl) 0 = .ok () := by
    apply contigCheckAux_of_run
    simpa using hrun
  simp only [mustReplace, hfind, hcontig]

/-- C5 witness: replacing the contiguous run `[20, 30]` at index 1 of
`[10, 20, 30, 40]` by `99`. -/
theorem claim5_witness :
    (([10, 20, 30, 40] : List Nat).Nodup) ∧ (([20, 30] : List Nat) ≠ []) ∧
    ((([10, 20, 30, 40] : List Nat).drop 1).take ([20, 30] : List Nat).length = [20, 30]) ∧
    mustReplace [10, 20, 30, 40] [20, 30] 99 =
      .ok (([10, 20, 30, 40] : List Nat).take 1 ++
        99 :: ([10, 20, 30, 40] : List Nat).drop (1 + ([20, 30] : List Nat).length)) :=
  ⟨by decide, by decide, by decide,
    claim5_theorem [10, 20, 30, 40] [20, 30] 99 1 (by decide) (by decide) (by decide)⟩

/-- C10: a FileSet produced by `MustReplace` carries a nil series-file reference and
a zero `manifestSize` (the Go constructor omits both fields), while
`PrependLogFile` preserves the original's series-file reference. -/
theorem claim10_theorem (fs : FileSetM) (oldFiles : List Nat) (newFile : Nat)
    (fs' : FileSetM) (hsf : fs.sfile ≠ none)
    (hok : fsMustReplace fs oldFiles newFile = .ok fs') :
    fsSeriesFile fs' = none ∧ fs'.manifestSize = 0 ∧
    ∀ f, fsSeriesFile (fsPrependLogFile fs f) = fsSeriesFile fs := by
  rw [fsMustReplace] at hok
  cases hres : mustReplace fs.files oldFiles newFile with
  | error msg => rw [hres] at hok; simp [Except.map] at hok
  | ok other =>
    rw [hres] at hok
    simp only [Except.map] at hok
    injection hok with hok
    subst hok
    exact ⟨rfl, rfl, fun f => rfl⟩

/-- C10 witness. -/
theorem claim10_witness :
    ((⟨[], some 7, [1], 5⟩ : FileSetM).sfile ≠ none) ∧
    (fsMustReplace ⟨[], some 7, [1], 5⟩ [1] 2 = .ok ⟨[], none, [2], 0⟩) ∧
    (fsSeriesFile (⟨[], none, [2], 0⟩ : FileSetM) = none ∧
      (⟨[], none, [2], 0⟩ : FileSetM).manifestSize = 0 ∧
      ∀ f, fsSeriesFile (fsPrependLogFile ⟨[], some 7, [1], 5⟩ f) =
        fsSeriesFile ⟨[], some 7, [1], 5⟩) :=
  ⟨by simp, rfl, claim10_theorem ⟨[], some 7, [1], 5⟩ [1] 2 ⟨[], none, [2], 0⟩ (by simp) rfl⟩

/-! ## Predicate trees (`cnosql.Expr`) and `newSeriesCursor` (series_cursor.go) -/

inductive Token where
  | EQ | NEQ | EQREGEX | NEQREGEX | AND | OR | LT | GT | ADD
  deriving DecidableEq, Repr

/-- `cnosql.Expr` nodes used by the walked predicate trees: binary expressions,
variable references, string literals, regex literals (modelled by their match
predicate) and parenthesised expressions. -/
inductive Expr where
  | binary (op : Token) (lhs rhs : Expr)
  | varRef (val : String)
  | stringLit (val : List Nat)
  | regexLit (rmatch : List Nat → Bool)
  | paren (e : Expr)

/-- The operators accepted by `newSeriesCursor`'s validation walk. -/
def validCursorOp (op : Token) : Bool :=
  match op with
  | .EQ | .NEQ | .EQREGEX | .NEQREGEX | .OR | .AND => true
  | _ => false

/-- The `cnosql.WalkFunc` validation: every `BinaryExpr` anywhere in the tree must
carry an accepted operator. -/
def exprOpsValid : Expr → Bool
  | .binary op lhs rhs => validCursorOp op && exprOpsValid lhs && exprOpsValid rhs
  | .paren e => exprOpsValid e
  | _ => true

/-- Spec-side predicate: the tree contains, anywhere, a `BinaryExpr` whose operator
is not one of EQ, NEQ, EQREGEX, NEQREGEX, AND, OR. -/
def containsBadOp : Expr → Prop
  | .binary op lhs rhs =>
    op ∉ ([.EQ, .NEQ, .EQREGEX, .NEQREGEX, .AND, .OR] : List Token) ∨
      containsBadOp lhs ∨ containsBadOp rhs
  | .paren e => containsBadOp e
  | _ => False

theorem containsBadOp_iff (e : Expr) : containsBadOp e ↔ exprOpsValid e = false := by
  induction e with
  | binary op lhs rhs ihl ihr =>
    rw [containsBadOp, exprOpsValid]
    rw [ihl, ihr]
    cases op <;> simp [validCursorOp] <;> (cases exprOpsValid lhs <;> simp)
  | varRef v => simp [containsBadOp, exprOpsValid]
  | stringLit v => simp [containsBadOp, exprOpsValid]
  | regexLit m => simp [containsBadOp, exprOpsValid]
  | paren e ih =>
    rw [containsBadOp, exprOpsValid]
    exact ih

/-- Cursor construction errors: the explicit validation error, or an error
propagated from obtaining the metric iterator. -/
inductive CursorErr where
  | invalidOp
  | other (msg : String)
  deriving DecidableEq, Repr

/-- The index set seen by `newSeriesCursor`: obtaining its metric iterator performs
I/O and may fail; the iterator itself is an opaque handle. -/
structure SCIndexSet where
  metricIterator : Except String Nat

structure SeriesCursorS where
  mitr : Nat
  cond : Option Expr

/-- `newSeriesCursor`: validate the predicate's operators first; only then take the
supplied metric iterator or obtain one from the index set. -/
def newSeriesCursor (reqMetrics : Option Nat) (idx : SCIndexSet) (cond : Option Expr) :
    Except CursorErr SeriesCursorS :=
  if (match cond with
      | none => true
      | some e => exprOpsValid e) = false then .error .invalidOp
  else
    match reqMetrics with
    | some m => .ok ⟨m, cond⟩
    | none =>
      match idx.metricIterator with
      | .error e => .error (.other e)
      | .ok m => .ok ⟨m, cond⟩

/-- C8: a predicate containing a disallowed operator anywhere in its tree makes
`newSeriesCursor` fail with the validation error for every index set and every
supplied iterator — before any I/O, since the result does not depend on the index
set's metric-iterator oracle — while a predicate with only allowed operators (or no
predicate) never triggers the validation error. -/
theorem claim8_theorem :
    (∀ (req : Option Nat) (idx : SCIndexSet) (e : Expr), containsBadOp e →
      newSeriesCursor req idx (some e) = .error .invalidOp) ∧
    (∀ (req : Option Nat) (idx : SCIndexSet) (cond : Option Expr),
      (∀ e, cond = some e → ¬ containsBadOp e) →
      newSeriesCursor req idx cond ≠ .error CursorErr.invalidOp) := by
  constructor
  · intro req idx e hbad
    have hval : exprOpsValid e = false := (containsBadOp_iff e).mp hbad
    simp [newSeriesCursor, hval]
  · intro req idx cond hgood
    cases cond with
    | none =>
      simp only [newSeriesCursor]
      cases req with
      | some m => simp
      | none =>
        cases hit : idx.metricIterator with
        | error e => simp [hit]
        | ok m => simp [hit]
    | some e =>
      have hval : exprOpsValid e = true := by
        have h2 := hgood e rfl
        rw [containsBadOp_iff] at h2
        simpa using h2
      simp only [newSeriesCursor, hval]
      cases req with
      | some m => simp
      | none =>
        cases hit : idx.metricIterator with
        | error e2 => simp [hit]
        | ok m => simp [hit]

/-- C8 witness: an `LT` comparison is rejected regardless of the index set, and an
`EQ` predicate passes validation. -/
theorem claim8_witness :
    containsBadOp (.binary .LT (.varRef "a") (.stringLit [1])) ∧
    newSeriesCursor none ⟨.ok 0⟩ (some (.binary .LT (.varRef "a") (.stringLit [1]))) =
      .error .invalidOp ∧
    (∀ e, (some (.binary .EQ (.varRef "a") (.stringLit [1])) : Option Expr) = some e →
      ¬ containsBadOp e) ∧
    newSeriesCursor none ⟨.ok 0⟩ (some (.binary .EQ (.varRef "a") (.stringLit [1]))) ≠
      .error CursorErr.invalidOp := by
  have hbad : containsBadOp (.binary .LT (.varRef "a") (.stringLit [1])) :=
    (containsBadOp_iff _).mpr rfl
  have hgood : ∀ e, (some (.binary .EQ (.varRef "a") (.stringLit [1])) : Option Expr) =
      some e → ¬ containsBadOp e := by
    intro e he
    injection he with he
    subst he
    rw [containsBadOp_iff]
    simp [exprOpsValid, validCursorOp]
  exact ⟨hbad, claim8_theorem.1 none ⟨.ok 0⟩ _ hbad, hgood,
    claim8_theorem.2 none ⟨.ok 0⟩ _ hgood⟩

/-! ## `FileSet.MetricTagKeysByExpr` (file_set.go lines 241-336) -/

/-- The comparison operators of the first `switch` case. -/
def cmpOp (op : Token) : Bool :=
  match op with
  | .EQ | .NEQ | .EQREGEX | .NEQREGEX => true
  | _ => false

/-- `cnosql.IsRegexOp`. -/
def isRegexOp (op : Token) : Bool :=
  match op with
  | .EQREGEX | .NEQREGEX => true
  | _ => false

def andOrOp (op : Token) : Bool :=
  match op with
  | .AND | .OR => true
  | _ => false

/-- The per-key `matched` switch of `tagKeysByFilter`. -/
def tagKeyMatch (op : Token) (val : List Nat) (re : Option (List Nat → Bool))
    (key : List Nat) : Bool :=
  match op with
  | .EQ => decide (key = val)
  | .NEQ => !(decide (key = val))
  | .EQREGEX =>
    match re with
    | some r => r key
    | none => false
  | .NEQREGEX =>
    match re with
    | some r => !(r key)
    | none => false
  | _ => false

/-- The `expr == nil` branch: collect every key yielded by `fs.TagKeyIterator(name)`
(tombstoned keys included — the Go loop does not consult `Deleted()`). -/
def fsTagKeyIteratorKeys (files : List File) (name : List Nat) : Finset (List Nat) :=
  match fsTagKeyIterator files name with
  | none => ∅
  | some slots => ((tagKeyMergeStream slots).map tagKeyMergeElemKey).toFinset

/-- `fs.tagKeysByFilter(name, op, val, regex)`. -/
def tagKeysByFilter (files : List File) (name : List Nat) (op : Token) (val : List Nat)
    (re : Option (List Nat → Bool)) : Finset (List Nat) :=
  match fsTagKeyIterator files name with
  | none => ∅
  | some slots =>
    (((tagKeyMergeStream slots).map tagKeyMergeElemKey).filter
      (tagKeyMatch op val re)).toFinset

/-- `FileSet.MetricTagKeysByExpr` on a non-nil expression.  The Go function returns
`(map, error)` where the map may itself be nil: the result is
`Except error (Option set)`. -/
def metricTagKeysByExprE (files : List File) (name : List Nat) :
    Expr → Except String (Option (Finset (List Nat)))
  | .binary op lhs rhs =>
    if cmpOp op then
      match lhs with
      | .varRef tag =>
        if tag ≠ "_tagKey" then .ok none
        else if isRegexOp op then
          match rhs with
          | .regexLit r => .ok (some (tagKeysByFilter files name op [] (some r)))
          | _ => .error "right side must be a regular expression"
        else
          match rhs with
          | .stringLit s => .ok (some (tagKeysByFilter files name op s none))
          | _ => .error "right side must be a tag value string"
      | _ => .error "left side must be a tag key"
    else if andOrOp op then
      match metricTagKeysByExprE files name lhs with
      | .error e => .error e
      | .ok lhsR =>
        match metricTagKeysByExprE files name rhs with
        | .error e => .error e
        | .ok rhsR =>
          match lhsR, rhsR with
          | some l, some r => .ok (some (if op = .OR then l ∪ r else l ∩ r))
          | some l, none => .ok (some l)
          | none, some r => .ok (some r)
          | none, none => .ok none
    else .error "invalid operator"
  | .paren e => metricTagKeysByExprE files name e
  | _ => .error "unhandled expression"

/-- `FileSet.MetricTagKeysByExpr`: a nil expression returns all tag keys. -/
def metricTagKeysByExpr (files : List File) (name : List Nat) :
    Option Expr → Except String (Option (Finset (List Nat)))
  | none => .ok (some (fsTagKeyIteratorKeys files name))
  | some e => metricTagKeysByExprE files name e

/-- C9 counterexample: a top-level `EQ` comparison whose left-hand side is the tag
variable `"foo"` (≠ `"_tagKey"`) makes `MetricTagKeysByExpr` return a nil map with a
nil error — not a user-facing error value as claimed. -/
theorem claim9_counterexample :
    metricTagKeysByExpr [] [] (some (.binary .EQ (.varRef "foo") (.stringLit [1]))) =
      .ok none ∧
    ∀ msg, metricTagKeysByExpr [] []
      (some (.binary .EQ (.varRef "foo") (.stringLit [1]))) ≠ .error msg := by
  refine ⟨rfl, fun msg h => ?_⟩
  rw [show metricTagKeysByExpr [] []
      (some (.binary .EQ (.varRef "foo") (.stringLit [1]))) = .ok none from rfl] at h
  exact Except.noConfusion h

/-- C9 (amended): for a top-level comparison (`EQ`/`NEQ`/`EQREGEX`/`NEQREGEX`), a
left-hand side that is a tag variable other than `"_tagKey"` yields a nil result
with **no** error (the filter is silently dropped); only a left-hand side that is
not a variable reference at all yields a user-facing error; any operator other than
the comparisons and `AND`/`OR` yields the "invalid operator" user-facing error; and
a nil expression returns the set of all tag keys of the metric (deleted ones
included).  No input panics: the function is total. -/
theorem claim9_theorem (files : List File) (name : List Nat) (op : Token)
    (lhs rhs : Expr) :
    (cmpOp op = true →
      ((∀ v, lhs = .varRef v → v ≠ "_tagKey" →
          metricTagKeysByExprE files name (.binary op lhs rhs) = .ok none) ∧
        ((∀ v, lhs ≠ .varRef v) →
          ∃ msg, metricTagKeysByExprE files name (.binary op lhs rhs) = .error msg))) ∧
    (cmpOp op = false → op ≠ .AND → op ≠ .OR →
      ∃ msg, metricTagKeysByExprE files name (.binary op lhs rhs) = .error msg) ∧
    metricTagKeysByExpr files name none = .ok (some (fsTagKeyIteratorKeys files name)) := by
  refine ⟨?_, ?_, rfl⟩
  · intro hcmp
    constructor
    · intro v hl hv
      subst hl
      simp [metricTagKeysByExprE, hcmp, hv]
    · intro hnv
      cases lhs with
      | binary op2 l2 r2 =>
        exact ⟨"left side must be a tag key", by simp [metricTagKeysByExprE, hcmp]⟩
      | varRef v => exact absurd rfl (hnv v)
      | stringLit v =>
        exact ⟨"left side must be a tag key", by simp [metricTagKeysByExprE, hcmp]⟩
      | regexLit r =>
        exact ⟨"left side must be a tag key", by simp [metricTagKeysByExprE, hcmp]⟩
      | paren e =>
        exact ⟨"left side must be a tag key", by simp [metricTagKeysByExprE, hcmp]⟩
  · intro hcmp hand hor
    have handOr : andOrOp op = false := by
      cases op with
      | AND => exact absurd rfl hand
      | OR => exact absurd rfl hor
      | EQ => simp [cmpOp] at hcmp
      | NEQ => simp [cmpOp] at hcmp
      | EQREGEX => simp [cmpOp] at hcmp
      | NEQREGEX => simp [cmpOp] at hcmp
      | LT => rfl
      | GT => rfl
      | ADD => rfl
    exact ⟨"invalid operator", by simp [metricTagKeysByExprE, hcmp, handOr]⟩

/-- C9 witness: the amended behaviour at a concrete comparison with LHS `"foo"`. -/
theorem claim9_witness :
    cmpOp .EQ = true ∧ ("foo" : String) ≠ "_tagKey" ∧
    metricTagKeysByExprE [] [] (.binary .EQ (.varRef "foo") (.stringLit [1])) =
      .ok none :=
  ⟨rfl, by decide,
    ((claim9_theorem [] [] .EQ (.varRef "foo") (.stringLit [1])).1 rfl).1 "foo" rfl
      (by decide)⟩
